import Mathlib

set_option maxHeartbeats 1000000
set_option maxRecDepth 4000

/-!
Shallow embedding of the stake pool pallet
(src/pallets/phala/src/stakepool.rs).

Balances are modelled as unbounded naturals: the Rust balance type is an
unsigned integer on which the pallet uses saturating arithmetic, so
`saturating_sub` is truncated subtraction (exactly `Nat.sub`) and
`saturating_add` agrees with `+` below the astronomically large saturation
bound, which the spec treats as unreachable.  Account ids, worker public
keys and timestamps are abstracted to naturals.  Storage maps become
functions into `Option`, mirroring the `StorageMap` reads and writes of the
source.  The mining subsystem, the worker registry and the currency are
external collaborators (their code is not part of this repository), so
their observable behaviour is passed in as oracle parameters, except for
the miner deposit bookkeeping (`minerStake`), which is modelled from the
spec because the `on_cleanup` liquidity bound depends on it.
-/

def SCALE : Nat := 1000000

structure WithdrawInfo where
  user : Nat
  amount : Nat
  start_time : Nat
deriving DecidableEq, Repr

structure PoolInfo where
  pid : Nat
  owner : Nat
  payout_commission : Option Nat
  owner_reward : Nat
  cap : Option Nat
  pool_acc : Nat
  total_stake : Nat
  free_stake : Nat
  workers : List Nat
  withdraw_queue : List WithdrawInfo
deriving DecidableEq, Repr

structure UserStakeInfo where
  user : Nat
  amount : Nat
  available_rewards : Nat
  user_debt : Nat
deriving DecidableEq, Repr

/-- UserStakeInfo.pending_reward from the source: the truncated subtraction
models the unsigned `-`; the development proves it never truncates on
reachable states. -/
def pending_reward (u : UserStakeInfo) (acc_per_share : Nat) : Nat :=
  u.amount * acc_per_share / SCALE - u.user_debt

/-- UserStakeInfo.clear_pending_reward from the source. -/
def clear_pending_reward (u : UserStakeInfo) (acc_per_share : Nat) : UserStakeInfo :=
  { u with user_debt := u.amount * acc_per_share / SCALE }

/-- PoolInfo.clear_user_pending_reward from the source. -/
def clear_user_pending_reward (p : PoolInfo) (u : UserStakeInfo) : UserStakeInfo :=
  clear_pending_reward
    { u with available_rewards := u.available_rewards + pending_reward u p.pool_acc }
    p.pool_acc

/-- Permill-by-balance multiplication of sp_arithmetic (external dependency):
parts-per-million rate times a balance, rounding down, with `None`
defaulting to the zero rate (`unwrap_or_default`). -/
def permill_mul (c : Option Nat) (r : Nat) : Nat :=
  (c.getD 0) * r / SCALE

/-- PoolInfo.add_reward from the source. -/
def add_reward (p : PoolInfo) (rewards : Nat) : PoolInfo :=
  { p with pool_acc := p.pool_acc + rewards * SCALE / p.total_stake }

/-- Pallet::handle_pool_new_reward from the source. -/
def handle_pool_new_reward (p : PoolInfo) (rewards : Nat) : PoolInfo :=
  if 0 < rewards ∧ 0 < p.total_stake then
    let commission := permill_mul p.payout_commission rewards
    add_reward { p with owner_reward := p.owner_reward + commission } (rewards - commission)
  else p

inductive Event where
  | PoolCreated (owner : Nat) (pid : Nat)
  | PoolCommissionSet (pid : Nat) (commission : Nat)
  | PoolCapacitySet (pid : Nat) (cap : Nat)
  | PoolWorkerAdded (pid : Nat) (worker : Nat)
  | Deposit (pid : Nat) (user : Nat) (amount : Nat)
  | Withdraw (pid : Nat) (user : Nat) (amount : Nat)
  | WithdrawRewards (pid : Nat) (user : Nat) (amount : Nat)
deriving DecidableEq, Repr

inductive Err where
  | WorkerNotRegistered
  | BenchmarkMissing
  | WorkerHasAdded
  | WorkerHasNotAdded
  | UnauthorizedOperator
  | UnauthorizedPoolOwner
  | InvalidCapacity
  | StakeExceedCapacity
  | PoolNotExist
  | LessThanMinDeposit
  | InsufficientBalance
  | StakeInfoNotFound
  | InsufficientStake
  | InvalidWithdrawAmount
  | StartMiningCallFailed
  | MinerBindingCallFailed
  | ExternalCallFailed
deriving DecidableEq, Repr

/-- Pointwise map update, modelling a StorageMap insert. -/
def upd {κ α : Type} [DecidableEq κ] (f : κ → α) (k : κ) (v : α) : κ → α :=
  fun x => if x = k then v else f x

/-- The whole pallet storage plus the externally owned pieces the claims
mention: `minerStake` is the mining subsystem deposit bookkeeping (modelled
from the spec, sections 4.9 and 4.11) and `freeBalance` is the currency
free balance (external). -/
structure State where
  miningPools : Nat → Option PoolInfo
  stakingInfo : Nat × Nat → Option UserStakeInfo
  poolCount : Nat
  workerInPool : Nat → Option Nat
  stakeLedger : Nat → Option Nat
  locks : Nat → Option Nat
  withdrawPools : Nat → Option (List Nat)
  withdrawTimestamps : List Nat
  minerStake : Nat → Nat
  freeBalance : Nat → Nat
  events : List Event

def initState : State where
  miningPools := fun _ => none
  stakingInfo := fun _ => none
  poolCount := 0
  workerInPool := fun _ => none
  stakeLedger := fun _ => none
  locks := fun _ => none
  withdrawPools := fun _ => none
  withdrawTimestamps := []
  minerStake := fun _ => 0
  freeBalance := fun _ => 0
  events := []

def emit (s : State) (e : Event) : State :=
  { s with events := s.events ++ [e] }

/-- Pallet::update_lock from the source: mirror the ledger value as a
currency lock, removing the lock entirely at zero. -/
def update_lock (s : State) (who : Nat) (amount : Nat) : State :=
  if amount = 0 then { s with locks := upd s.locks who none }
  else { s with locks := upd s.locks who (some amount) }

/-- Ledger::ledger_accrue from the source. -/
def ledger_accrue (s : State) (who : Nat) (amount : Nat) : State :=
  let b := (s.stakeLedger who).getD 0
  let newB := b + amount
  update_lock { s with stakeLedger := upd s.stakeLedger who (some newB) } who newB

/-- Ledger::ledger_reduce from the source (saturating subtraction). -/
def ledger_reduce (s : State) (who : Nat) (amount : Nat) : State :=
  let b := (s.stakeLedger who).getD 0
  let newB := b - amount
  update_lock { s with stakeLedger := upd s.stakeLedger who (some newB) } who newB

/-- Ledger::ledger_query from the source. -/
def ledger_query (s : State) (who : Nat) : Nat :=
  (s.stakeLedger who).getD 0

/-- Pallet::maybe_add_withdraw_queue from the source.  The VecDeque of
timestamps is a list with its front at the head. -/
def push_timestamp (t : List Nat) (start_time : Nat) : List Nat :=
  match t.getLast? with
  | some last => if last < start_time then t ++ [start_time] else t
  | none => [start_time]

def push_pool (wp : Nat → Option (List Nat)) (start_time : Nat) (pid : Nat) :
    Nat → Option (List Nat) :=
  match wp start_time with
  | some pool_list =>
      if pid ∈ pool_list then wp else upd wp start_time (some (pool_list ++ [pid]))
  | none => upd wp start_time (some [pid])

def maybe_add_withdraw_queue (s : State) (start_time : Nat) (pid : Nat) : State :=
  { s with withdrawTimestamps := push_timestamp s.withdrawTimestamps start_time,
           withdrawPools := push_pool s.withdrawPools start_time pid }

/-- Pallet::try_withdraw from the source.  Updates to the pool and the user
record are returned for the caller to persist, exactly as in the source. -/
def try_withdraw (s : State) (p : PoolInfo) (u : UserStakeInfo) (amount : Nat)
    (now : Nat) : State × PoolInfo × UserStakeInfo :=
  if amount ≤ p.free_stake then
    let p1 := { p with free_stake := p.free_stake - amount,
                       total_stake := p.total_stake - amount }
    let u1 := { u with amount := u.amount - amount }
    let s1 := ledger_reduce s u1.user amount
    let s2 := emit s1 (Event.Withdraw p1.pid u1.user amount)
    (s2, p1, clear_pending_reward u1 p1.pool_acc)
  else
    let delta := p.free_stake
    let unwithdraw_amount := amount - p.free_stake
    let p1 := { p with total_stake := p.total_stake - delta }
    let u1 := { u with amount := u.amount - delta }
    let s1 := ledger_reduce s u1.user p1.free_stake
    let s2 := emit s1 (Event.Withdraw p1.pid u1.user p1.free_stake)
    let p2 := { p1 with
                free_stake := 0,
                withdraw_queue := p1.withdraw_queue ++ [⟨u1.user, unwithdraw_amount, now⟩] }
    let s3 := maybe_add_withdraw_queue s2 now p2.pid
    (s3, p2, clear_pending_reward u1 p2.pool_acc)

/-- One iteration of the Pallet::try_process_withdraw_queue loop body from
the source: settle the pending reward of the queue head user, move
`delta = min(free_stake, head.amount)` out of the pool, the head and the
user record, reduce the ledger, emit the Withdraw event, re-anchor the
user debt and pop or write back the head. -/
def tpq_step (s : State) (p : PoolInfo) (w : WithdrawInfo) (rest : List WithdrawInfo)
    (u0 : UserStakeInfo) : State × PoolInfo :=
  let u1 := clear_user_pending_reward p u0
  let delta := min p.free_stake w.amount
  let p1 := { p with free_stake := p.free_stake - delta,
                     total_stake := p.total_stake - delta }
  let w1 : WithdrawInfo := { w with amount := w.amount - delta }
  let u2 := { u1 with amount := u1.amount - delta }
  let s1 := ledger_reduce s u0.user delta
  let s2 := emit s1 (Event.Withdraw p1.pid u0.user delta)
  let u3 := clear_pending_reward u2 p1.pool_acc
  let s3 := { s2 with stakingInfo := upd s2.stakingInfo (p1.pid, w.user) (some u3) }
  let p2 := if w1.amount = 0 then { p1 with withdraw_queue := rest }
            else { p1 with withdraw_queue := w1 :: rest }
  (s3, p2)

/-- The record a drained queue head user is left with: settled, reduced by
delta and re-anchored. -/
def drain_user (p : PoolInfo) (u0 : UserStakeInfo) (delta : Nat) : UserStakeInfo :=
  clear_pending_reward
    { clear_user_pending_reward p u0 with
      amount := (clear_user_pending_reward p u0).amount - delta }
    p.pool_acc

/-- Loop of Pallet::try_process_withdraw_queue, with explicit fuel.
Each iteration either pops the queue head or zeroes the free stake (which
ends the loop), so `queue length + 1` units of fuel reproduce the source
loop exactly.  A missing staking record for a queued user makes the source
panic; the model stops there instead, and the reachability invariant shows
the situation never arises. -/
def tpq (fuel : Nat) (s : State) (p : PoolInfo) : State × PoolInfo :=
  match fuel with
  | 0 => (s, p)
  | fuel + 1 =>
    if 0 < p.free_stake then
      match p.withdraw_queue with
      | [] => (s, p)
      | w :: rest =>
        match s.stakingInfo (p.pid, w.user) with
        | none => (s, p)
        | some u0 => tpq fuel (tpq_step s p w rest u0).1 (tpq_step s p w rest u0).2
    else (s, p)

/-- Pallet::try_process_withdraw_queue from the source. -/
def try_process_withdraw_queue (s : State) (p : PoolInfo) : State × PoolInfo :=
  tpq (p.withdraw_queue.length + 1) s p

/-- Pallet::create from the source. -/
def create (s : State) (owner : Nat) : State × Option Err :=
  let pid := s.poolCount
  let pool : PoolInfo :=
    { pid := pid, owner := owner, payout_commission := none, owner_reward := 0,
      cap := none, pool_acc := 0, total_stake := 0, free_stake := 0,
      workers := [], withdraw_queue := [] }
  let s1 := { s with miningPools := upd s.miningPools pid (some pool),
                     poolCount := pid + 1 }
  (emit s1 (Event.PoolCreated owner pid), none)

/-- Pallet::add_worker from the source.  The registry lookups are external
(worker registered, operator bound to the caller, benchmark present), so
their outcomes are oracle booleans.  The mining bind call is modelled from
the spec, section 4.3: it fails exactly when the worker is already bound to
a pool, which the pallet surfaces as MinerBindingCallFailed. -/
def add_worker (s : State) (caller : Nat) (pid : Nat) (pubkey : Nat)
    (registered operatorOk benchmarked : Bool) : State × Option Err :=
  if ¬ registered then (s, some Err.WorkerNotRegistered)
  else if ¬ operatorOk then (s, some Err.UnauthorizedOperator)
  else if ¬ benchmarked then (s, some Err.BenchmarkMissing)
  else
    match s.miningPools pid with
    | none => (s, some Err.PoolNotExist)
    | some pool =>
      if pool.owner ≠ caller then (s, some Err.UnauthorizedPoolOwner)
      else if pubkey ∈ pool.workers then (s, some Err.WorkerHasAdded)
      else if (s.workerInPool pubkey).isSome then (s, some Err.MinerBindingCallFailed)
      else
        let pool1 := { pool with workers := pool.workers ++ [pubkey] }
        let s1 := { s with miningPools := upd s.miningPools pid (some pool1),
                           workerInPool := upd s.workerInPool pubkey (some pid) }
        (emit s1 (Event.PoolWorkerAdded pid pubkey), none)

/-- Pallet::set_cap from the source. -/
def set_cap (s : State) (caller : Nat) (pid : Nat) (cap : Nat) :
    State × Option Err :=
  match s.miningPools pid with
  | none => (s, some Err.PoolNotExist)
  | some pool =>
    if pool.owner ≠ caller then (s, some Err.UnauthorizedPoolOwner)
    else if ¬ pool.total_stake ≤ cap then (s, some Err.InvalidCapacity)
    else
      let s1 := { s with miningPools := upd s.miningPools pid (some { pool with cap := some cap }) }
      (emit s1 (Event.PoolCapacitySet pid cap), none)

/-- Pallet::set_payout_pref from the source; the commission is a Permill,
carried as its parts-per-million numerator. -/
def set_payout_pref (s : State) (caller : Nat) (pid : Nat) (commission : Nat) :
    State × Option Err :=
  match s.miningPools pid with
  | none => (s, some Err.PoolNotExist)
  | some pool =>
    if pool.owner ≠ caller then (s, some Err.UnauthorizedPoolOwner)
    else
      let pool1 := { pool with payout_commission := some commission }
      let s1 := { s with miningPools := upd s.miningPools pid (some pool1) }
      (emit s1 (Event.PoolCommissionSet pid commission), none)

/-- Pallet::claim_reward from the source.  `transferOk` is the outcome of
the external Currency::deposit_into_existing call; on success the reward is
minted onto the free balance of the target. -/
def claim_reward (s : State) (who : Nat) (pid : Nat) (target : Nat)
    (transferOk : Bool) : State × Option Err :=
  match s.stakingInfo (pid, who) with
  | none => (s, some Err.StakeInfoNotFound)
  | some user0 =>
    match s.miningPools pid with
    | none => (s, some Err.PoolNotExist)
    | some pool =>
      let user1 := clear_user_pending_reward pool user0
      let rewards := user1.available_rewards
      if ¬ transferOk then (s, some Err.ExternalCallFailed)
      else
        let s1 := { s with freeBalance := upd s.freeBalance target (s.freeBalance target + rewards) }
        let user2 := { user1 with available_rewards := 0 }
        let s2 := { s1 with stakingInfo := upd s1.stakingInfo (pid, who) (some user2) }
        (emit s2 (Event.WithdrawRewards pid who rewards), none)

/-- Pallet::deposit from the source, with the minimal deposit `md` as the
MinDeposit configuration constant. -/
def deposit (md : Nat) (s : State) (who : Nat) (pid : Nat) (amount : Nat) :
    State × Option Err :=
  if amount < md then (s, some Err.LessThanMinDeposit)
  else if s.freeBalance who < amount then (s, some Err.InsufficientBalance)
  else
    match s.miningPools pid with
    | none => (s, some Err.PoolNotExist)
    | some pool =>
      let capExceeded : Bool := match pool.cap with
        | some c => decide (c - pool.total_stake < amount)
        | none => false
      if capExceeded then (s, some Err.StakeExceedCapacity)
      else
        let user0 := match s.stakingInfo (pid, who) with
          | some u => clear_user_pending_reward pool u
          | none => ⟨who, 0, 0, 0⟩
        let user1 := clear_pending_reward { user0 with amount := user0.amount + amount } pool.pool_acc
        let s1 := { s with stakingInfo := upd s.stakingInfo (pid, who) (some user1) }
        let s2 := ledger_accrue s1 who amount
        let pool1 := { pool with total_stake := pool.total_stake + amount,
                                 free_stake := pool.free_stake + amount }
        let r := try_process_withdraw_queue s2 pool1
        let s3 := { r.1 with miningPools := upd r.1.miningPools pid (some r.2) }
        (emit s3 (Event.Deposit pid who amount), none)

/-- Pallet::withdraw from the source.  Note that, as in the source, the
pending reward of the caller is NOT settled before `try_withdraw` changes
the staked amount. -/
def withdraw (s : State) (who : Nat) (pid : Nat) (amount : Nat) (now : Nat) :
    State × Option Err :=
  match s.stakingInfo (pid, who) with
  | none => (s, some Err.StakeInfoNotFound)
  | some user =>
    if ¬ (0 < amount ∧ amount ≤ user.amount) then (s, some Err.InvalidWithdrawAmount)
    else
      match s.miningPools pid with
      | none => (s, some Err.PoolNotExist)
      | some pool =>
        let r : State × PoolInfo × UserStakeInfo :=
          if ¬ pool.withdraw_queue.isEmpty then
            (maybe_add_withdraw_queue s now pool.pid,
             { pool with withdraw_queue := pool.withdraw_queue ++ [⟨who, amount, now⟩] },
             user)
          else try_withdraw s pool user amount now
        let s1 := { r.1 with stakingInfo := upd r.1.stakingInfo (pid, who) (some r.2.2) }
        ({ s1 with miningPools := upd s1.miningPools pid (some r.2.1) }, none)

/-- Pallet::start_mining from the source.  The set_deposit call writes the
miner deposit (modelled from the spec); `startOk` is the outcome of the
external mining start call.  On failure the deposit is rolled back to zero
exactly as in the source. -/
def start_mining (s : State) (caller : Nat) (pid : Nat) (worker : Nat)
    (stake : Nat) (startOk : Bool) : State × Option Err :=
  match s.miningPools pid with
  | none => (s, some Err.PoolNotExist)
  | some pool =>
    if pool.owner ≠ caller then (s, some Err.UnauthorizedPoolOwner)
    else if ¬ stake ≤ pool.free_stake then (s, some Err.InsufficientStake)
    else if ¬ worker ∈ pool.workers then (s, some Err.WorkerHasNotAdded)
    else
      let s1 := { s with minerStake := upd s.minerStake worker stake }
      if startOk then
        let pool1 := { pool with free_stake := pool.free_stake - stake }
        ({ s1 with miningPools := upd s1.miningPools pid (some pool1) }, none)
      else
        ({ s1 with minerStake := upd s1.minerStake worker 0 }, some Err.StartMiningCallFailed)

/-- Pallet::stop_mining from the source; `stopOk` is the outcome of the
external mining stop call. -/
def stop_mining (s : State) (caller : Nat) (pid : Nat) (worker : Nat)
    (stopOk : Bool) : State × Option Err :=
  match s.miningPools pid with
  | none => (s, some Err.PoolNotExist)
  | some pool =>
    if pool.owner ≠ caller then (s, some Err.UnauthorizedPoolOwner)
    else if ¬ worker ∈ pool.workers then (s, some Err.WorkerHasNotAdded)
    else if stopOk then (s, none) else (s, some Err.ExternalCallFailed)

/-- One iteration of OnReward::on_reward from the source (one SettleInfo
entry).  A worker outside WorkerInPool or a missing pool makes the source
panic; such steps are excluded by the step-relation guard. -/
def on_reward_one (s : State) (worker : Nat) (payout : Nat) : State :=
  match s.workerInPool worker with
  | none => s
  | some pid =>
    match s.miningPools pid with
    | none => s
    | some pool =>
      { s with miningPools := upd s.miningPools pid (some (handle_pool_new_reward pool payout)) }

/-- OnReward::on_reward from the source, folding over the settle list. -/
def on_reward (s : State) (settle : List (Nat × Nat)) : State :=
  settle.foldl (fun t wp => on_reward_one t wp.1 wp.2) s

/-- OnCleanup::on_cleanup from the source.  The returned deposit frees the
stake and the queue is drained.  Zeroing the miner deposit is modelled from
the spec (the mining subsystem resets the deposit at cleanup). -/
def on_cleanup (s : State) (worker : Nat) (deposit_balance : Nat) : State :=
  match s.workerInPool worker with
  | none => s
  | some pid =>
    match s.miningPools pid with
    | none => s
    | some pool =>
      let s1 := { s with minerStake := upd s.minerStake worker 0 }
      let pool1 := { pool with free_stake := pool.free_stake + deposit_balance }
      let r := try_process_withdraw_queue s1 pool1
      { r.1 with miningPools := upd r.1.miningPools pid (some r.2) }

/-- One extrinsic or callback invocation, with its oracle outcomes for the
external collaborators.  `opFund` models arbitrary external currency
activity on free balances. -/
inductive OpCall where
  | opCreate (owner : Nat)
  | opAddWorker (caller : Nat) (pid : Nat) (worker : Nat)
      (registered operatorOk benchmarked : Bool)
  | opSetCap (caller : Nat) (pid : Nat) (cap : Nat)
  | opSetPayoutPref (caller : Nat) (pid : Nat) (commission : Nat)
  | opClaimReward (who : Nat) (pid : Nat) (target : Nat) (transferOk : Bool)
  | opDeposit (who : Nat) (pid : Nat) (amount : Nat)
  | opWithdraw (who : Nat) (pid : Nat) (amount : Nat) (now : Nat)
  | opStartMining (caller : Nat) (pid : Nat) (worker : Nat)
      (stake : Nat) (startOk : Bool)
  | opStopMining (caller : Nat) (pid : Nat) (worker : Nat) (stopOk : Bool)
  | opOnReward (worker : Nat) (payout : Nat)
  | opOnCleanup (worker : Nat) (deposit_balance : Nat)
  | opFund (fb : Nat → Nat)

/-- Dispatch of one call. -/
def runOp (md : Nat) (s : State) : OpCall → State × Option Err
  | .opCreate o => create s o
  | .opAddWorker c pid w r o b => add_worker s c pid w r o b
  | .opSetCap c pid cap => set_cap s c pid cap
  | .opSetPayoutPref c pid com => set_payout_pref s c pid com
  | .opClaimReward who pid t ok => claim_reward s who pid t ok
  | .opDeposit who pid a => deposit md s who pid a
  | .opWithdraw who pid a now => withdraw s who pid a now
  | .opStartMining c pid w st ok => start_mining s c pid w st ok
  | .opStopMining c pid w ok => stop_mining s c pid w ok
  | .opOnReward w payout => (on_reward_one s w payout, none)
  | .opOnCleanup w d => (on_cleanup s w d, none)
  | .opFund fb => ({ s with freeBalance := fb }, none)

/-- Environment constraints on a call: a Permill rate is at most one; the
mining subsystem only rewards and cleans up workers that are bound to a
pool (the source treats the opposite as a programming invariant and
panics); and a cleanup returns at most the deposit the miner holds
(modelled from the spec, which says the freed deposit is the stake
committed to the miner, possibly lowered by future slashing). -/
def Good (s : State) : OpCall → Prop
  | .opSetPayoutPref _ _ com => com ≤ SCALE
  | .opOnReward w _ => (s.workerInPool w).isSome
  | .opOnCleanup w d => (s.workerInPool w).isSome ∧ d ≤ s.minerStake w
  | _ => True

/-- One step of the pallet state machine. -/
def StepR (md : Nat) (s s1 : State) : Prop :=
  ∃ c, Good s c ∧ s1 = (runOp md s c).1

/-- States reachable from genesis by any sequence of operations. -/
def Reachable (md : Nat) (s : State) : Prop :=
  Relation.ReflTransGen (StepR md) initState s

/-- Sum of the staked amount of one account over all pools, the right hand
side of the global ledger invariant of the spec. -/
def sumUserAmounts (s : State) (a : Nat) : Nat :=
  ((List.range s.poolCount).map (fun pid =>
    match s.stakingInfo (pid, a) with
    | some u => u.amount
    | none => 0)).sum

/-- Total miner deposit currently committed by the workers of one pool. -/
def minerTotal (s : State) (p : PoolInfo) : Nat :=
  (p.workers.map s.minerStake).sum

/-- Trace for the withdraw reward-settlement analysis: create pool 0
(owner 30) and add worker 7 to it. -/
def traceBase : State :=
  (add_worker (create initState 30).1 30 0 7 true true true).1

/-- External currency funding for the trace accounts. -/
def traceFunded : State :=
  { traceBase with freeBalance := fun _ => 1000000 }

/-- Account 5 deposits 100 into pool 0. -/
def traceDep : State :=
  (deposit 1 traceFunded 5 0 100).1

/-- A 100 unit reward arrives for worker 7 of pool 0, making pool_acc
10^6 and giving account 5 a pending reward of 100. -/
def c1Rewarded : State :=
  on_reward_one traceDep 7 100

/-- Account 5 then withdraws 50 of its 100 staked. -/
def c1After : State :=
  (withdraw c1Rewarded 5 0 50 0).1

/-- Trace for the ledger analysis: from the funded deposit state, the pool
owner starts worker 7 mining with the whole 100 free stake. -/
def c3Mining : State :=
  (start_mining traceDep 30 0 7 100 true).1

/-- Account 5 requests a withdraw of its full 100 stake; no free stake, so
the request queues. -/
def c3Queued1 : State :=
  (withdraw c3Mining 5 0 100 0).1

/-- Account 5 requests the full 100 again; the queue is non-empty, so the
second request also queues, although only 100 are staked in total. -/
def c3Queued2 : State :=
  (withdraw c3Queued1 5 0 100 1).1

/-- Worker 7 is cleaned up, returning its 100 deposit; the first queued
request drains fully. -/
def c3Cleaned : State :=
  on_cleanup c3Queued2 7 100

/-- A second pool (pid 1) is created and account 5 stakes 50 in it. -/
def c3TwoPools : State :=
  (deposit 1 (create c3Cleaned 30).1 5 1 50).1

/-- Account 6 deposits 100 into pool 0; the stale queue entry of account 5
drains against a zero stake, saturating the ledger of account 5 to zero. -/
def c3Final : State :=
  (deposit 1 c3TwoPools 6 0 100).1

/-- The pool of the queue-drain example of the spec: total stake 500, no
free stake, one queued request of 199 by account 5, workers 1 and 2. -/
def c5Pool : PoolInfo :=
  { pid := 0, owner := 30, payout_commission := none, owner_reward := 0,
    cap := none, pool_acc := 0, total_stake := 500, free_stake := 0,
    workers := [1, 2], withdraw_queue := [⟨5, 199, 0⟩] }

/-- Concrete pre-state for the queue-drain example of the spec: pool 0 is
c5Pool and workers 1 and 2 are mining with deposits 400 and 100. -/
def c5Start : State where
  miningPools := upd (fun _ => none) 0 (some c5Pool)
  stakingInfo := upd (fun _ => none) (0, 5) (some ⟨5, 499, 0, 0⟩)
  poolCount := 1
  workerInPool := upd (upd (fun _ => none) 1 (some 0)) 2 (some 0)
  stakeLedger := upd (fun _ => none) 5 (some 499)
  locks := upd (fun _ => none) 5 (some 499)
  withdrawPools := upd (fun _ => none) 0 (some [0])
  withdrawTimestamps := [0]
  minerStake := upd (upd (fun _ => 0) 1 400) 2 100
  freeBalance := fun _ => 0
  events := []

/-- Cleanup of worker 2 returns 100 to the pool of the example. -/
def c5Mid : State :=
  on_cleanup c5Start 2 100

/-- Cleanup of worker 1 then returns the remaining 400. -/
def c5End : State :=
  on_cleanup c5Mid 1 400

/-- A pool with an owner, 100 total stake and a cap of 200, used to witness
the cap-enforcement cases. -/
def capState : State :=
  { initState with
      miningPools := upd (fun _ => none) 0 (some ⟨0, 30, none, 0, some 200, 0, 100, 100, [], []⟩),
      poolCount := 1,
      freeBalance := fun _ => 1000000 }


/-- The inductive invariant carried through all reachable states.  The
fields the claims talk about are stake_bound (free stake plus committed
miner deposits never exceed total stake), queue_free (a pool with a
waiting queue has no free stake) and debt_bound (the reward debt never
exceeds the accumulator value of the stake); the remaining fields are the
bookkeeping consistency facts needed to push those through every
operation. -/
structure SInv (s : State) : Prop where
  pid_eq : ∀ pid p, s.miningPools pid = some p → p.pid = pid
  fresh : ∀ pid, s.poolCount ≤ pid → s.miningPools pid = none
  workers_nodup : ∀ pid p, s.miningPools pid = some p → p.workers.Nodup
  worker_to_pool : ∀ pid p w, s.miningPools pid = some p → w ∈ p.workers →
    s.workerInPool w = some pid
  pool_of_worker : ∀ w pid, s.workerInPool w = some pid →
    ∃ p, s.miningPools pid = some p ∧ w ∈ p.workers
  unbound_zero : ∀ w, s.workerInPool w = none → s.minerStake w = 0
  stake_bound : ∀ pid p, s.miningPools pid = some p →
    p.free_stake + minerTotal s p ≤ p.total_stake
  queue_free : ∀ pid p, s.miningPools pid = some p → p.withdraw_queue ≠ [] →
    p.free_stake = 0
  queue_users : ∀ pid p wi, s.miningPools pid = some p → wi ∈ p.withdraw_queue →
    (s.stakingInfo (pid, wi.user)).isSome = true
  staked_pool : ∀ pid a, (s.stakingInfo (pid, a)).isSome = true →
    (s.miningPools pid).isSome = true
  debt_bound : ∀ pid a u p, s.stakingInfo (pid, a) = some u →
    s.miningPools pid = some p → u.user_debt ≤ u.amount * p.pool_acc / SCALE
  keyed : ∀ pid a u, s.stakingInfo (pid, a) = some u → u.user = a

/-- The pallet-owned storage, the part of the state that failure atomicity
is about (mining deposits and currency balances belong to the external
subsystems, events are not storage). -/
structure Core where
  miningPools : Nat → Option PoolInfo
  stakingInfo : Nat × Nat → Option UserStakeInfo
  poolCount : Nat
  workerInPool : Nat → Option Nat
  stakeLedger : Nat → Option Nat
  locks : Nat → Option Nat
  withdrawPools : Nat → Option (List Nat)
  withdrawTimestamps : List Nat

def core (s : State) : Core :=
  ⟨s.miningPools, s.stakingInfo, s.poolCount, s.workerInPool, s.stakeLedger,
   s.locks, s.withdrawPools, s.withdrawTimestamps⟩

theorem upd_self {κ α : Type} [DecidableEq κ] (f : κ → α) (k : κ) (v : α) :
    upd f k v k = v := by
  simp [upd]

theorem upd_ne {κ α : Type} [DecidableEq κ] (f : κ → α) (k x : κ) (v : α)
    (h : x ≠ k) : upd f k v x = f x := by
  simp [upd, h]

theorem update_lock_miningPools (s : State) (who : Nat) (a : Nat) :
    (update_lock s who a).miningPools = s.miningPools := by
  unfold update_lock; split <;> rfl

theorem update_lock_stakingInfo (s : State) (who : Nat) (a : Nat) :
    (update_lock s who a).stakingInfo = s.stakingInfo := by
  unfold update_lock; split <;> rfl

theorem update_lock_poolCount (s : State) (who : Nat) (a : Nat) :
    (update_lock s who a).poolCount = s.poolCount := by
  unfold update_lock; split <;> rfl

theorem update_lock_workerInPool (s : State) (who : Nat) (a : Nat) :
    (update_lock s who a).workerInPool = s.workerInPool := by
  unfold update_lock; split <;> rfl

theorem update_lock_minerStake (s : State) (who : Nat) (a : Nat) :
    (update_lock s who a).minerStake = s.minerStake := by
  unfold update_lock; split <;> rfl

theorem update_lock_stakeLedger (s : State) (who : Nat) (a : Nat) :
    (update_lock s who a).stakeLedger = s.stakeLedger := by
  unfold update_lock; split <;> rfl

theorem ledger_reduce_miningPools (s : State) (who : Nat) (a : Nat) :
    (ledger_reduce s who a).miningPools = s.miningPools := by
  unfold ledger_reduce; rw [update_lock_miningPools]

theorem ledger_reduce_stakingInfo (s : State) (who : Nat) (a : Nat) :
    (ledger_reduce s who a).stakingInfo = s.stakingInfo := by
  unfold ledger_reduce; rw [update_lock_stakingInfo]

theorem ledger_reduce_poolCount (s : State) (who : Nat) (a : Nat) :
    (ledger_reduce s who a).poolCount = s.poolCount := by
  unfold ledger_reduce; rw [update_lock_poolCount]

theorem ledger_reduce_workerInPool (s : State) (who : Nat) (a : Nat) :
    (ledger_reduce s who a).workerInPool = s.workerInPool := by
  unfold ledger_reduce; rw [update_lock_workerInPool]

theorem ledger_reduce_minerStake (s : State) (who : Nat) (a : Nat) :
    (ledger_reduce s who a).minerStake = s.minerStake := by
  unfold ledger_reduce; rw [update_lock_minerStake]

theorem ledger_accrue_miningPools (s : State) (who : Nat) (a : Nat) :
    (ledger_accrue s who a).miningPools = s.miningPools := by
  unfold ledger_accrue; rw [update_lock_miningPools]

theorem ledger_accrue_stakingInfo (s : State) (who : Nat) (a : Nat) :
    (ledger_accrue s who a).stakingInfo = s.stakingInfo := by
  unfold ledger_accrue; rw [update_lock_stakingInfo]

theorem ledger_accrue_poolCount (s : State) (who : Nat) (a : Nat) :
    (ledger_accrue s who a).poolCount = s.poolCount := by
  unfold ledger_accrue; rw [update_lock_poolCount]

theorem ledger_accrue_workerInPool (s : State) (who : Nat) (a : Nat) :
    (ledger_accrue s who a).workerInPool = s.workerInPool := by
  unfold ledger_accrue; rw [update_lock_workerInPool]

theorem ledger_accrue_minerStake (s : State) (who : Nat) (a : Nat) :
    (ledger_accrue s who a).minerStake = s.minerStake := by
  unfold ledger_accrue; rw [update_lock_minerStake]

theorem maybe_add_miningPools (s : State) (t pid : Nat) :
    (maybe_add_withdraw_queue s t pid).miningPools = s.miningPools := rfl

theorem maybe_add_stakingInfo (s : State) (t pid : Nat) :
    (maybe_add_withdraw_queue s t pid).stakingInfo = s.stakingInfo := rfl

theorem maybe_add_poolCount (s : State) (t pid : Nat) :
    (maybe_add_withdraw_queue s t pid).poolCount = s.poolCount := rfl

theorem maybe_add_workerInPool (s : State) (t pid : Nat) :
    (maybe_add_withdraw_queue s t pid).workerInPool = s.workerInPool := rfl

theorem maybe_add_minerStake (s : State) (t pid : Nat) :
    (maybe_add_withdraw_queue s t pid).minerStake = s.minerStake := rfl

theorem maybe_add_stakeLedger (s : State) (t pid : Nat) :
    (maybe_add_withdraw_queue s t pid).stakeLedger = s.stakeLedger := rfl

theorem sum_map_upd_not_mem (f : Nat → Nat) (l : List Nat) (w : Nat) (v : Nat)
    (h : w ∉ l) : (l.map (upd f w v)).sum = (l.map f).sum := by
  induction l with
  | nil => rfl
  | cons x xs ih =>
      simp only [List.map_cons, List.sum_cons]
      have hxw : x ≠ w := fun hx => h (hx ▸ List.mem_cons_self x xs)
      rw [upd_ne _ _ _ _ hxw, ih (fun hw => h (List.mem_cons_of_mem x hw))]

theorem sum_map_upd_mem (f : Nat → Nat) (l : List Nat) (w : Nat) (v : Nat)
    (hn : l.Nodup) (h : w ∈ l) :
    (l.map (upd f w v)).sum + f w = (l.map f).sum + v := by
  induction l with
  | nil => cases h
  | cons x xs ih =>
      rcases List.mem_cons.mp h with rfl | hx
      · have hnx : w ∉ xs := (List.nodup_cons.mp hn).1
        simp only [List.map_cons, List.sum_cons]
        rw [upd_self, sum_map_upd_not_mem f xs w v hnx]
        omega
      · have hxw : x ≠ w := by
          rintro rfl
          exact (List.nodup_cons.mp hn).1 hx
        simp only [List.map_cons, List.sum_cons]
        rw [upd_ne _ _ _ _ hxw]
        have := ih (List.nodup_cons.mp hn).2 hx
        omega

theorem tpq_step_pool_fields (s : State) (p : PoolInfo) (w : WithdrawInfo)
    (rest : List WithdrawInfo) (u0 : UserStakeInfo) :
    (tpq_step s p w rest u0).2.pid = p.pid ∧
    (tpq_step s p w rest u0).2.owner = p.owner ∧
    (tpq_step s p w rest u0).2.payout_commission = p.payout_commission ∧
    (tpq_step s p w rest u0).2.owner_reward = p.owner_reward ∧
    (tpq_step s p w rest u0).2.cap = p.cap ∧
    (tpq_step s p w rest u0).2.pool_acc = p.pool_acc ∧
    (tpq_step s p w rest u0).2.workers = p.workers := by
  simp only [tpq_step]
  split <;> exact ⟨rfl, rfl, rfl, rfl, rfl, rfl, rfl⟩

theorem tpq_step_free_total (s : State) (p : PoolInfo) (w : WithdrawInfo)
    (rest : List WithdrawInfo) (u0 : UserStakeInfo) :
    (tpq_step s p w rest u0).2.free_stake = p.free_stake - min p.free_stake w.amount ∧
    (tpq_step s p w rest u0).2.total_stake = p.total_stake - min p.free_stake w.amount := by
  simp only [tpq_step]
  split <;> exact ⟨rfl, rfl⟩

theorem tpq_step_queue (s : State) (p : PoolInfo) (w : WithdrawInfo)
    (rest : List WithdrawInfo) (u0 : UserStakeInfo) :
    (tpq_step s p w rest u0).2.withdraw_queue =
      if w.amount - min p.free_stake w.amount = 0 then rest
      else { w with amount := w.amount - min p.free_stake w.amount } :: rest := by
  simp only [tpq_step]
  split <;> simp_all

theorem tpq_step_state_fields (s : State) (p : PoolInfo) (w : WithdrawInfo)
    (rest : List WithdrawInfo) (u0 : UserStakeInfo) :
    (tpq_step s p w rest u0).1.miningPools = s.miningPools ∧
    (tpq_step s p w rest u0).1.poolCount = s.poolCount ∧
    (tpq_step s p w rest u0).1.workerInPool = s.workerInPool ∧
    (tpq_step s p w rest u0).1.minerStake = s.minerStake := by
  simp only [tpq_step]
  refine ⟨?_, ?_, ?_, ?_⟩ <;>
    simp [emit, ledger_reduce_miningPools, ledger_reduce_poolCount,
      ledger_reduce_workerInPool, ledger_reduce_minerStake]

theorem tpq_step_stakingInfo (s : State) (p : PoolInfo) (w : WithdrawInfo)
    (rest : List WithdrawInfo) (u0 : UserStakeInfo) :
    (tpq_step s p w rest u0).1.stakingInfo =
      upd s.stakingInfo (p.pid, w.user)
        (some (drain_user p u0 (min p.free_stake w.amount))) := by
  simp only [tpq_step, drain_user]
  simp [emit, ledger_reduce_stakingInfo]

theorem drain_user_debt (p : PoolInfo) (u0 : UserStakeInfo) (delta : Nat) :
    (drain_user p u0 delta).user_debt =
      (drain_user p u0 delta).amount * p.pool_acc / SCALE := rfl

theorem tpq_zero (s : State) (p : PoolInfo) : tpq 0 s p = (s, p) := rfl

theorem tpq_succ_stop (fuel : Nat) (s : State) (p : PoolInfo)
    (h : ¬ 0 < p.free_stake) : tpq (fuel + 1) s p = (s, p) := by
  rw [tpq, if_neg h]

theorem tpq_succ_nil (fuel : Nat) (s : State) (p : PoolInfo)
    (h : 0 < p.free_stake) (hq : p.withdraw_queue = []) :
    tpq (fuel + 1) s p = (s, p) := by
  rw [tpq, if_pos h, hq]

theorem tpq_succ_none (fuel : Nat) (s : State) (p : PoolInfo) (w : WithdrawInfo)
    (rest : List WithdrawInfo) (h : 0 < p.free_stake)
    (hq : p.withdraw_queue = w :: rest) (hu : s.stakingInfo (p.pid, w.user) = none) :
    tpq (fuel + 1) s p = (s, p) := by
  rw [tpq, if_pos h, hq]
  simp only [hu]

theorem tpq_succ_step (fuel : Nat) (s : State) (p : PoolInfo) (w : WithdrawInfo)
    (rest : List WithdrawInfo) (u0 : UserStakeInfo) (h : 0 < p.free_stake)
    (hq : p.withdraw_queue = w :: rest)
    (hu : s.stakingInfo (p.pid, w.user) = some u0) :
    tpq (fuel + 1) s p = tpq fuel (tpq_step s p w rest u0).1 (tpq_step s p w rest u0).2 := by
  rw [tpq, if_pos h, hq]
  simp only [hu]

theorem tpq_spec (fuel : Nat) : ∀ (s : State) (p : PoolInfo),
    (∀ wi ∈ p.withdraw_queue, (s.stakingInfo (p.pid, wi.user)).isSome = true) →
    ((tpq fuel s p).2.pid = p.pid ∧
     (tpq fuel s p).2.owner = p.owner ∧
     (tpq fuel s p).2.payout_commission = p.payout_commission ∧
     (tpq fuel s p).2.owner_reward = p.owner_reward ∧
     (tpq fuel s p).2.cap = p.cap ∧
     (tpq fuel s p).2.pool_acc = p.pool_acc ∧
     (tpq fuel s p).2.workers = p.workers) ∧
    (∃ d, d ≤ p.free_stake ∧ (tpq fuel s p).2.free_stake = p.free_stake - d ∧
      (tpq fuel s p).2.total_stake = p.total_stake - d) ∧
    (p.withdraw_queue.length < fuel →
      (tpq fuel s p).2.free_stake = 0 ∨ (tpq fuel s p).2.withdraw_queue = []) ∧
    (∀ wi ∈ (tpq fuel s p).2.withdraw_queue, ∃ w0 ∈ p.withdraw_queue, wi.user = w0.user) ∧
    ((tpq fuel s p).1.miningPools = s.miningPools ∧
     (tpq fuel s p).1.poolCount = s.poolCount ∧
     (tpq fuel s p).1.workerInPool = s.workerInPool ∧
     (tpq fuel s p).1.minerStake = s.minerStake) ∧
    (∀ k, (s.stakingInfo k).isSome = true → ((tpq fuel s p).1.stakingInfo k).isSome = true) ∧
    (∀ k u, (tpq fuel s p).1.stakingInfo k = some u →
      s.stakingInfo k = some u ∨
      (k.1 = p.pid ∧ u.user_debt = u.amount * p.pool_acc / SCALE ∧
        ∃ u0, s.stakingInfo k = some u0 ∧ u.user = u0.user)) := by
  induction fuel with
  | zero =>
      intro s p _
      rw [tpq_zero]
      exact ⟨⟨rfl, rfl, rfl, rfl, rfl, rfl, rfl⟩,
        ⟨0, Nat.zero_le _, (Nat.sub_zero _).symm, (Nat.sub_zero _).symm⟩,
        fun h => absurd h (Nat.not_lt_zero _),
        fun wi hwi => ⟨wi, hwi, rfl⟩,
        ⟨rfl, rfl, rfl, rfl⟩,
        fun _ h => h,
        fun _ _ h => Or.inl h⟩
  | succ fuel ih =>
      intro s p hq
      by_cases hfree : 0 < p.free_stake
      · cases hqq : p.withdraw_queue with
        | nil =>
            rw [tpq_succ_nil fuel s p hfree hqq]
            refine ⟨⟨rfl, rfl, rfl, rfl, rfl, rfl, rfl⟩,
              ⟨0, Nat.zero_le _, (Nat.sub_zero _).symm, (Nat.sub_zero _).symm⟩,
              fun _ => Or.inr hqq,
              fun wi hwi => ⟨wi, ?_, rfl⟩,
              ⟨rfl, rfl, rfl, rfl⟩,
              fun _ h => h,
              fun _ _ h => Or.inl h⟩
            have h2 : wi ∈ p.withdraw_queue := hwi
            rw [hqq] at h2
            exact h2
        | cons w rest =>
            have hsk : (s.stakingInfo (p.pid, w.user)).isSome = true :=
              hq w (by rw [hqq]; exact List.mem_cons_self w rest)
            obtain ⟨u0, hu0⟩ := Option.isSome_iff_exists.mp hsk
            rw [tpq_succ_step fuel s p w rest u0 hfree hqq hu0]
            obtain ⟨hpid, hown, hcom, hor, hcap, hacc, hwk⟩ := tpq_step_pool_fields s p w rest u0
            obtain ⟨hfree2, htot2⟩ := tpq_step_free_total s p w rest u0
            have hqueue2 := tpq_step_queue s p w rest u0
            obtain ⟨hmp, hpc, hwp, hms⟩ := tpq_step_state_fields s p w rest u0
            have hsi := tpq_step_stakingInfo s p w rest u0
            have hminl : min p.free_stake w.amount ≤ p.free_stake := Nat.min_le_left _ _
            have hminr : min p.free_stake w.amount ≤ w.amount := Nat.min_le_right _ _
            have hmineq : min p.free_stake w.amount = p.free_stake ∨
                min p.free_stake w.amount = w.amount :=
              (Nat.le_total p.free_stake w.amount).imp
                (fun h => Nat.min_eq_left h) (fun h => Nat.min_eq_right h)
            have hq2 : ∀ wi ∈ (tpq_step s p w rest u0).2.withdraw_queue,
                (((tpq_step s p w rest u0).1).stakingInfo
                  ((tpq_step s p w rest u0).2.pid, wi.user)).isSome = true := by
              intro wi hwi
              rw [hsi, hpid]
              by_cases hk : ((p.pid : Nat), wi.user) = ((p.pid : Nat), w.user)
              · rw [hk, upd_self]; rfl
              · rw [upd_ne _ _ _ _ hk]
                rw [hqueue2] at hwi
                by_cases hc : w.amount - min p.free_stake w.amount = 0
                · rw [if_pos hc] at hwi
                  exact hq wi (by rw [hqq]; exact List.mem_cons_of_mem w hwi)
                · rw [if_neg hc] at hwi
                  rcases List.mem_cons.mp hwi with rfl | hwi2
                  · exact absurd rfl hk
                  · exact hq wi (by rw [hqq]; exact List.mem_cons_of_mem w hwi2)
            obtain ⟨C1, C2, C3, C4, C5, C6, C7⟩ :=
              ih (tpq_step s p w rest u0).1 (tpq_step s p w rest u0).2 hq2
            refine ⟨?_, ?_, ?_, ?_, ?_, ?_, ?_⟩
            · exact ⟨C1.1.trans hpid, C1.2.1.trans hown, C1.2.2.1.trans hcom,
                C1.2.2.2.1.trans hor, C1.2.2.2.2.1.trans hcap,
                C1.2.2.2.2.2.1.trans hacc, C1.2.2.2.2.2.2.trans hwk⟩
            · obtain ⟨d, hdle, hdf, hdt⟩ := C2
              exact ⟨min p.free_stake w.amount + d, by omega, by omega, by omega⟩
            · intro hlen
              simp only [List.length_cons] at hlen
              by_cases hc : w.amount - min p.free_stake w.amount = 0
              · have hq2len : (tpq_step s p w rest u0).2.withdraw_queue.length < fuel := by
                  rw [hqueue2, if_pos hc]
                  omega
                exact C3 hq2len
              · obtain ⟨d, hdle, hdf, hdt⟩ := C2
                left
                omega
            · intro wi hwi
              obtain ⟨w0, hw0, hwu⟩ := C4 wi hwi
              rw [hqueue2] at hw0
              by_cases hc : w.amount - min p.free_stake w.amount = 0
              · rw [if_pos hc] at hw0
                exact ⟨w0, List.mem_cons_of_mem w hw0, hwu⟩
              · rw [if_neg hc] at hw0
                rcases List.mem_cons.mp hw0 with rfl | hw02
                · exact ⟨w, List.mem_cons_self w rest, hwu⟩
                · exact ⟨w0, List.mem_cons_of_mem w hw02, hwu⟩
            · exact ⟨C5.1.trans hmp, C5.2.1.trans hpc, C5.2.2.1.trans hwp, C5.2.2.2.trans hms⟩
            · intro k hk
              refine C6 k ?_
              rw [hsi]
              by_cases hke : k = ((p.pid : Nat), w.user)
              · rw [hke, upd_self]; rfl
              · rw [upd_ne _ _ _ _ hke]; exact hk
            · intro k u hk
              rcases C7 k u hk with hleft | ⟨hk1, hanch, u0X, hs3u0, huserX⟩
              · rw [hsi] at hleft
                by_cases hke : k = ((p.pid : Nat), w.user)
                · rw [hke, upd_self] at hleft
                  have hu : u = drain_user p u0 (min p.free_stake w.amount) :=
                    (Option.some_inj.mp hleft).symm
                  refine Or.inr ⟨by rw [hke], ?_, ?_⟩
                  · rw [hu]
                    exact drain_user_debt p u0 (min p.free_stake w.amount)
                  · refine ⟨u0, by rw [hke]; exact hu0, ?_⟩
                    rw [hu]
                    rfl
                · rw [upd_ne _ _ _ _ hke] at hleft
                  exact Or.inl hleft
              · refine Or.inr ⟨hk1.trans hpid, by rw [← hacc]; exact hanch, ?_⟩
                rw [hsi] at hs3u0
                by_cases hke : k = ((p.pid : Nat), w.user)
                · rw [hke, upd_self] at hs3u0
                  have hdx : drain_user p u0 (min p.free_stake w.amount) = u0X :=
                    Option.some_inj.mp hs3u0
                  refine ⟨u0, by rw [hke]; exact hu0, ?_⟩
                  rw [huserX, ← hdx]
                  rfl
                · rw [upd_ne _ _ _ _ hke] at hs3u0
                  exact ⟨u0X, hs3u0, huserX⟩
      · rw [tpq_succ_stop fuel s p hfree]
        exact ⟨⟨rfl, rfl, rfl, rfl, rfl, rfl, rfl⟩,
          ⟨0, Nat.zero_le _, (Nat.sub_zero _).symm, (Nat.sub_zero _).symm⟩,
          fun _ => Or.inl (Nat.eq_zero_of_not_pos hfree),
          fun wi hwi => ⟨wi, hwi, rfl⟩,
          ⟨rfl, rfl, rfl, rfl⟩,
          fun _ h => h,
          fun _ _ h => Or.inl h⟩

theorem tpw_spec (s : State) (p : PoolInfo)
    (hq : ∀ wi ∈ p.withdraw_queue, (s.stakingInfo (p.pid, wi.user)).isSome = true) :
    ((try_process_withdraw_queue s p).2.pid = p.pid ∧
     (try_process_withdraw_queue s p).2.owner = p.owner ∧
     (try_process_withdraw_queue s p).2.payout_commission = p.payout_commission ∧
     (try_process_withdraw_queue s p).2.owner_reward = p.owner_reward ∧
     (try_process_withdraw_queue s p).2.cap = p.cap ∧
     (try_process_withdraw_queue s p).2.pool_acc = p.pool_acc ∧
     (try_process_withdraw_queue s p).2.workers = p.workers) ∧
    (∃ d, d ≤ p.free_stake ∧
      (try_process_withdraw_queue s p).2.free_stake = p.free_stake - d ∧
      (try_process_withdraw_queue s p).2.total_stake = p.total_stake - d) ∧
    ((try_process_withdraw_queue s p).2.free_stake = 0 ∨
      (try_process_withdraw_queue s p).2.withdraw_queue = []) ∧
    (∀ wi ∈ (try_process_withdraw_queue s p).2.withdraw_queue,
      ∃ w0 ∈ p.withdraw_queue, wi.user = w0.user) ∧
    ((try_process_withdraw_queue s p).1.miningPools = s.miningPools ∧
     (try_process_withdraw_queue s p).1.poolCount = s.poolCount ∧
     (try_process_withdraw_queue s p).1.workerInPool = s.workerInPool ∧
     (try_process_withdraw_queue s p).1.minerStake = s.minerStake) ∧
    (∀ k, (s.stakingInfo k).isSome = true →
      ((try_process_withdraw_queue s p).1.stakingInfo k).isSome = true) ∧
    (∀ k u, (try_process_withdraw_queue s p).1.stakingInfo k = some u →
      s.stakingInfo k = some u ∨
      (k.1 = p.pid ∧ u.user_debt = u.amount * p.pool_acc / SCALE ∧
        ∃ u0, s.stakingInfo k = some u0 ∧ u.user = u0.user)) := by
  obtain ⟨A1, A2, A3, A4, A5, A6, A7⟩ :=
    tpq_spec (p.withdraw_queue.length + 1) s p hq
  exact ⟨A1, A2, A3 (Nat.lt_succ_self _), A4, A5, A6, A7⟩

theorem minerTotal_congr (s s2 : State) (p p2 : PoolInfo)
    (hms : s2.minerStake = s.minerStake) (hwk : p2.workers = p.workers) :
    minerTotal s2 p2 = minerTotal s p := by
  unfold minerTotal
  rw [hms, hwk]

theorem stop_mining_state (s : State) (c pid w : Nat) (ok : Bool) :
    (stop_mining s c pid w ok).1 = s := by
  unfold stop_mining
  cases s.miningPools pid with
  | none => rfl
  | some pool => split <;> (try split) <;> (try split) <;> (try split) <;> rfl

theorem sinv_stop_mining (s : State) (c pid w : Nat) (ok : Bool) (h : SInv s) :
    SInv (stop_mining s c pid w ok).1 := by
  rw [stop_mining_state]
  exact h

theorem sinv_fund (s : State) (fb : Nat → Nat) (h : SInv s) :
    SInv { s with freeBalance := fb } := by
  obtain ⟨Hpid, Hfresh, Hnodup, Hw2p, Hp2w, Hzero, Hsb, Hqf, Hqu, Hsp, Hdb, Hkey⟩ := h
  exact ⟨Hpid, Hfresh, Hnodup, Hw2p, Hp2w, Hzero, Hsb, Hqf, Hqu, Hsp, Hdb, Hkey⟩

theorem sinv_create (s : State) (o : Nat) (h : SInv s) : SInv (create s o).1 := by
  obtain ⟨Hpid, Hfresh, Hnodup, Hw2p, Hp2w, Hzero, Hsb, Hqf, Hqu, Hsp, Hdb, Hkey⟩ := h
  have hcnone : s.miningPools s.poolCount = none := Hfresh s.poolCount (Nat.le_refl _)
  have hmp : ∀ q, (create s o).1.miningPools q =
      upd s.miningPools s.poolCount
        (some ⟨s.poolCount, o, none, 0, none, 0, 0, 0, [], []⟩) q := fun _ => rfl
  have hpc : (create s o).1.poolCount = s.poolCount + 1 := rfl
  have hsi : (create s o).1.stakingInfo = s.stakingInfo := rfl
  have hwip : (create s o).1.workerInPool = s.workerInPool := rfl
  have hmst : (create s o).1.minerStake = s.minerStake := rfl
  refine ⟨?_, ?_, ?_, ?_, ?_, ?_, ?_, ?_, ?_, ?_, ?_, ?_⟩
  · intro pid p hp
    rw [hmp] at hp
    by_cases he : pid = s.poolCount
    · rw [he, upd_self] at hp
      cases hp
      exact he.symm
    · rw [upd_ne _ _ _ _ he] at hp
      exact Hpid pid p hp
  · intro pid hge
    rw [hpc] at hge
    have hne : pid ≠ s.poolCount := by omega
    rw [hmp, upd_ne _ _ _ _ hne]
    exact Hfresh pid (by omega)
  · intro pid p hp
    rw [hmp] at hp
    by_cases he : pid = s.poolCount
    · rw [he, upd_self] at hp
      cases hp
      exact List.nodup_nil
    · rw [upd_ne _ _ _ _ he] at hp
      exact Hnodup pid p hp
  · intro pid p w hp hw
    rw [hmp] at hp
    rw [hwip]
    by_cases he : pid = s.poolCount
    · rw [he, upd_self] at hp
      cases hp
      cases hw
    · rw [upd_ne _ _ _ _ he] at hp
      exact Hw2p pid p w hp hw
  · intro w pid hw
    rw [hwip] at hw
    obtain ⟨p, hp, hmem⟩ := Hp2w w pid hw
    have hne : pid ≠ s.poolCount := by
      rintro rfl
      rw [hcnone] at hp
      cases hp
    refine ⟨p, ?_, hmem⟩
    rw [hmp, upd_ne _ _ _ _ hne]
    exact hp
  · intro w hw
    rw [hwip] at hw
    rw [hmst]
    exact Hzero w hw
  · intro pid p hp
    rw [hmp] at hp
    have hmt : minerTotal (create s o).1 p = minerTotal s p :=
      minerTotal_congr s (create s o).1 p p hmst rfl
    rw [hmt]
    by_cases he : pid = s.poolCount
    · rw [he, upd_self] at hp
      cases hp
      exact Nat.le_refl 0
    · rw [upd_ne _ _ _ _ he] at hp
      exact Hsb pid p hp
  · intro pid p hp hne
    rw [hmp] at hp
    by_cases he : pid = s.poolCount
    · rw [he, upd_self] at hp
      cases hp
      exact absurd rfl hne
    · rw [upd_ne _ _ _ _ he] at hp
      exact Hqf pid p hp hne
  · intro pid p wi hp hwi
    rw [hmp] at hp
    rw [hsi]
    by_cases he : pid = s.poolCount
    · rw [he, upd_self] at hp
      cases hp
      cases hwi
    · rw [upd_ne _ _ _ _ he] at hp
      exact Hqu pid p wi hp hwi
  · intro pid a hk
    rw [hsi] at hk
    have hs2 := Hsp pid a hk
    have hne : pid ≠ s.poolCount := by
      rintro rfl
      rw [hcnone] at hs2
      cases hs2
    rw [hmp, upd_ne _ _ _ _ hne]
    exact hs2
  · intro pid a u p hk hp
    rw [hsi] at hk
    rw [hmp] at hp
    have hs2 : (s.miningPools pid).isSome = true := Hsp pid a (by rw [hk]; rfl)
    have hne : pid ≠ s.poolCount := by
      rintro rfl
      rw [hcnone] at hs2
      cases hs2
    rw [upd_ne _ _ _ _ hne] at hp
    exact Hdb pid a u p hk hp
  · intro pid a u hk
    rw [hsi] at hk
    exact Hkey pid a u hk

theorem sum_map_mono (f g : Nat → Nat) (l : List Nat) (h : ∀ x, g x ≤ f x) :
    (l.map g).sum ≤ (l.map f).sum := by
  induction l with
  | nil => exact Nat.le_refl 0
  | cons x xs ih =>
      simp only [List.map_cons, List.sum_cons]
      exact Nat.add_le_add (h x) ih

theorem sinv_transport (s s2 : State) (h : SInv s)
    (h1 : s2.miningPools = s.miningPools) (h2 : s2.stakingInfo = s.stakingInfo)
    (h3 : s2.poolCount = s.poolCount) (h4 : s2.workerInPool = s.workerInPool)
    (h5 : s2.minerStake = s.minerStake) : SInv s2 := by
  obtain ⟨Hpid, Hfresh, Hnodup, Hw2p, Hp2w, Hzero, Hsb, Hqf, Hqu, Hsp, Hdb, Hkey⟩ := h
  have hmt : ∀ p, minerTotal s2 p = minerTotal s p :=
    fun p => minerTotal_congr s s2 p p h5 rfl
  refine ⟨?_, ?_, ?_, ?_, ?_, ?_, ?_, ?_, ?_, ?_, ?_, ?_⟩
  · rw [h1]; exact Hpid
  · rw [h1, h3]; exact Hfresh
  · rw [h1]; exact Hnodup
  · rw [h1, h4]; exact Hw2p
  · rw [h1, h4]; exact Hp2w
  · rw [h4, h5]; exact Hzero
  · intro pid p hp
    rw [hmt]
    rw [h1] at hp
    exact Hsb pid p hp
  · rw [h1]; exact Hqf
  · rw [h1, h2]; exact Hqu
  · rw [h1, h2]; exact Hsp
  · rw [h1, h2]; exact Hdb
  · rw [h2]; exact Hkey

theorem sinv_emit (s : State) (e : Event) (h : SInv s) : SInv (emit s e) :=
  sinv_transport s (emit s e) h rfl rfl rfl rfl rfl

theorem sinv_insert_user (s : State) (pid who : Nat) (u : UserStakeInfo)
    (pool : PoolInfo) (h : SInv s) (hp : s.miningPools pid = some pool)
    (hdb : u.user_debt ≤ u.amount * pool.pool_acc / SCALE)
    (hu : u.user = who) :
    SInv { s with stakingInfo := upd s.stakingInfo (pid, who) (some u) } := by
  obtain ⟨Hpid, Hfresh, Hnodup, Hw2p, Hp2w, Hzero, Hsb, Hqf, Hqu, Hsp, Hdb, Hkey⟩ := h
  refine ⟨Hpid, Hfresh, Hnodup, Hw2p, Hp2w, Hzero, Hsb, Hqf, ?_, ?_, ?_, ?_⟩
  · intro pid2 p wi hp2 hwi
    by_cases hk : ((pid2 : Nat), wi.user) = ((pid : Nat), who)
    · show (upd s.stakingInfo (pid, who) (some u) (pid2, wi.user)).isSome = true
      rw [hk, upd_self]; rfl
    · show (upd s.stakingInfo (pid, who) (some u) (pid2, wi.user)).isSome = true
      rw [upd_ne _ _ _ _ hk]
      exact Hqu pid2 p wi hp2 hwi
  · intro pid2 a hk
    by_cases hke : ((pid2 : Nat), a) = ((pid : Nat), who)
    · have : pid2 = pid := congrArg Prod.fst hke
      rw [this, hp]; rfl
    · have hk2 : (upd s.stakingInfo (pid, who) (some u) (pid2, a)).isSome = true := hk
      rw [upd_ne _ _ _ _ hke] at hk2
      exact Hsp pid2 a hk2
  · intro pid2 a v p hk hp2
    have hk2 : upd s.stakingInfo (pid, who) (some u) (pid2, a) = some v := hk
    by_cases hke : ((pid2 : Nat), a) = ((pid : Nat), who)
    · rw [hke, upd_self] at hk2
      cases hk2
      have hpe : pid2 = pid := congrArg Prod.fst hke
      rw [hpe] at hp2
      rw [hp] at hp2
      cases hp2
      exact hdb
    · rw [upd_ne _ _ _ _ hke] at hk2
      exact Hdb pid2 a v p hk2 hp2
  · intro pid2 a v hk
    have hk2 : upd s.stakingInfo (pid, who) (some u) (pid2, a) = some v := hk
    by_cases hke : ((pid2 : Nat), a) = ((pid : Nat), who)
    · rw [hke, upd_self] at hk2
      cases hk2
      rw [hu]
      exact (congrArg Prod.snd hke).symm
    · rw [upd_ne _ _ _ _ hke] at hk2
      exact Hkey pid2 a v hk2

theorem sinv_set_pool (s : State) (pid : Nat) (pool newPool : PoolInfo)
    (h : SInv s) (hp : s.miningPools pid = some pool)
    (hpid2 : newPool.pid = pool.pid)
    (hwk : newPool.workers = pool.workers)
    (hacc : pool.pool_acc ≤ newPool.pool_acc)
    (hsb : newPool.free_stake + minerTotal s pool ≤ newPool.total_stake)
    (hqf : newPool.withdraw_queue ≠ [] → newPool.free_stake = 0)
    (hqu : ∀ wi ∈ newPool.withdraw_queue, (s.stakingInfo (pid, wi.user)).isSome = true) :
    SInv { s with miningPools := upd s.miningPools pid (some newPool) } := by
  obtain ⟨Hpid, Hfresh, Hnodup, Hw2p, Hp2w, Hzero, Hsb, Hqf2, Hqu2, Hsp, Hdb, Hkey⟩ := h
  have hplt : ¬ s.poolCount ≤ pid := by
    intro hle
    rw [Hfresh pid hle] at hp
    cases hp
  refine ⟨?_, ?_, ?_, ?_, ?_, ?_, ?_, ?_, ?_, ?_, ?_, ?_⟩
  · intro q p hq2
    have hq3 : upd s.miningPools pid (some newPool) q = some p := hq2
    by_cases he : q = pid
    · rw [he, upd_self] at hq3
      cases hq3
      rw [he, hpid2]
      exact Hpid pid pool hp
    · rw [upd_ne _ _ _ _ he] at hq3
      exact Hpid q p hq3
  · intro q hge
    have hne : q ≠ pid := by
      rintro rfl
      exact hplt hge
    show upd s.miningPools pid (some newPool) q = none
    rw [upd_ne _ _ _ _ hne]
    exact Hfresh q hge
  · intro q p hq2
    have hq3 : upd s.miningPools pid (some newPool) q = some p := hq2
    by_cases he : q = pid
    · rw [he, upd_self] at hq3
      cases hq3
      rw [hwk]
      exact Hnodup pid pool hp
    · rw [upd_ne _ _ _ _ he] at hq3
      exact Hnodup q p hq3
  · intro q p w hq2 hw
    have hq3 : upd s.miningPools pid (some newPool) q = some p := hq2
    by_cases he : q = pid
    · rw [he, upd_self] at hq3
      cases hq3
      rw [hwk] at hw
      rw [he]
      exact Hw2p pid pool w hp hw
    · rw [upd_ne _ _ _ _ he] at hq3
      exact Hw2p q p w hq3 hw
  · intro w q hw
    obtain ⟨p, hp2, hmem⟩ := Hp2w w q hw
    by_cases he : q = pid
    · subst he
      rw [hp] at hp2
      cases hp2
      refine ⟨newPool, ?_, ?_⟩
      · show upd s.miningPools q (some newPool) q = some newPool
        rw [upd_self]
      · rw [hwk]; exact hmem
    · refine ⟨p, ?_, hmem⟩
      show upd s.miningPools pid (some newPool) q = some p
      rw [upd_ne _ _ _ _ he]
      exact hp2
  · exact Hzero
  · intro q p hq2
    have hq3 : upd s.miningPools pid (some newPool) q = some p := hq2
    by_cases he : q = pid
    · rw [he, upd_self] at hq3
      cases hq3
      have hmt : minerTotal { s with miningPools := upd s.miningPools pid (some newPool) }
          newPool = minerTotal s pool := by
        unfold minerTotal
        rw [hwk]
      rw [hmt]
      exact hsb
    · rw [upd_ne _ _ _ _ he] at hq3
      exact Hsb q p hq3
  · intro q p hq2 hne
    have hq3 : upd s.miningPools pid (some newPool) q = some p := hq2
    by_cases he : q = pid
    · rw [he, upd_self] at hq3
      cases hq3
      exact hqf hne
    · rw [upd_ne _ _ _ _ he] at hq3
      exact Hqf2 q p hq3 hne
  · intro q p wi hq2 hwi
    have hq3 : upd s.miningPools pid (some newPool) q = some p := hq2
    by_cases he : q = pid
    · rw [he, upd_self] at hq3
      cases hq3
      rw [he]
      exact hqu wi hwi
    · rw [upd_ne _ _ _ _ he] at hq3
      exact Hqu2 q p wi hq3 hwi
  · intro q a hk
    have hs2 := Hsp q a hk
    by_cases he : q = pid
    · rw [he]
      show (upd s.miningPools pid (some newPool) pid).isSome = true
      rw [upd_self]; rfl
    · show (upd s.miningPools pid (some newPool) q).isSome = true
      rw [upd_ne _ _ _ _ he]
      exact hs2
  · intro q a v p hk hq2
    have hq3 : upd s.miningPools pid (some newPool) q = some p := hq2
    by_cases he : q = pid
    · rw [he, upd_self] at hq3
      cases hq3
      rw [he] at hk
      have := Hdb pid a v pool hk hp
      calc v.user_debt ≤ v.amount * pool.pool_acc / SCALE := this
        _ ≤ v.amount * newPool.pool_acc / SCALE :=
          Nat.div_le_div_right (Nat.mul_le_mul_left _ hacc)
    · rw [upd_ne _ _ _ _ he] at hq3
      exact Hdb q a v p hk hq3
  · exact Hkey

theorem sinv_process_and_insert (s s2 : State) (pid : Nat) (pool pool1 : PoolInfo)
    (h : SInv s)
    (hp : s.miningPools pid = some pool)
    (hmp : s2.miningPools = s.miningPools) (hpc : s2.poolCount = s.poolCount)
    (hwip : s2.workerInPool = s.workerInPool)
    (hms : ∀ x, s2.minerStake x ≤ s.minerStake x)
    (hsi : ∀ k, (s.stakingInfo k).isSome = true → (s2.stakingInfo k).isSome = true)
    (hsi2 : ∀ k u, s2.stakingInfo k = some u →
        s.stakingInfo k = some u ∨
        (k.1 = pid ∧ u.user_debt = u.amount * pool1.pool_acc / SCALE ∧ u.user = k.2))
    (hkey2 : ∀ k u, s2.stakingInfo k = some u → u.user = k.2)
    (hp1pid : pool1.pid = pid)
    (hp1wk : pool1.workers = pool.workers)
    (hp1q : pool1.withdraw_queue = pool.withdraw_queue)
    (hp1acc : pool1.pool_acc = pool.pool_acc)
    (hp1sb : pool1.free_stake + minerTotal s2 pool ≤ pool1.total_stake) :
    SInv { (try_process_withdraw_queue s2 pool1).1 with
           miningPools := upd (try_process_withdraw_queue s2 pool1).1.miningPools pid
             (some (try_process_withdraw_queue s2 pool1).2) } := by
  obtain ⟨Hpid, Hfresh, Hnodup, Hw2p, Hp2w, Hzero, Hsb, Hqf, Hqu, Hsp, Hdb, Hkey⟩ := h
  have hqusers : ∀ wi ∈ pool1.withdraw_queue,
      (s2.stakingInfo (pool1.pid, wi.user)).isSome = true := by
    intro wi hwi
    rw [hp1q] at hwi
    rw [hp1pid]
    exact hsi _ (Hqu pid pool wi hp hwi)
  obtain ⟨⟨Bpid, Bown, Bcom, Bor, Bcap, Bacc, Bwk⟩, B2, B3, B4,
    ⟨Bmp, Bpc, Bwip, Bms⟩, B6, B7⟩ := tpw_spec s2 pool1 hqusers
  have hpidlt : ¬ s.poolCount ≤ pid := by
    intro hle
    rw [Hfresh pid hle] at hp
    cases hp
  refine ⟨?_, ?_, ?_, ?_, ?_, ?_, ?_, ?_, ?_, ?_, ?_, ?_⟩
  · intro q p hq2
    have hq3 : upd (try_process_withdraw_queue s2 pool1).1.miningPools pid
        (some (try_process_withdraw_queue s2 pool1).2) q = some p := hq2
    by_cases he : q = pid
    · rw [he, upd_self] at hq3
      cases hq3
      rw [he]
      exact Bpid.trans hp1pid
    · rw [upd_ne _ _ _ _ he, Bmp, hmp] at hq3
      exact Hpid q p hq3
  · intro q hge
    have hge2 : s.poolCount ≤ q := by
      have : ({ (try_process_withdraw_queue s2 pool1).1 with
        miningPools := upd (try_process_withdraw_queue s2 pool1).1.miningPools pid
          (some (try_process_withdraw_queue s2 pool1).2) } : State).poolCount
          = s.poolCount := Bpc.trans hpc
      rw [this] at hge
      exact hge
    have hne : q ≠ pid := by
      rintro rfl
      exact hpidlt hge2
    show upd (try_process_withdraw_queue s2 pool1).1.miningPools pid
        (some (try_process_withdraw_queue s2 pool1).2) q = none
    rw [upd_ne _ _ _ _ hne, Bmp, hmp]
    exact Hfresh q hge2
  · intro q p hq2
    have hq3 : upd (try_process_withdraw_queue s2 pool1).1.miningPools pid
        (some (try_process_withdraw_queue s2 pool1).2) q = some p := hq2
    by_cases he : q = pid
    · rw [he, upd_self] at hq3
      cases hq3
      rw [Bwk.trans hp1wk]
      exact Hnodup pid pool hp
    · rw [upd_ne _ _ _ _ he, Bmp, hmp] at hq3
      exact Hnodup q p hq3
  · intro q p w hq2 hw
    have hq3 : upd (try_process_withdraw_queue s2 pool1).1.miningPools pid
        (some (try_process_withdraw_queue s2 pool1).2) q = some p := hq2
    show (try_process_withdraw_queue s2 pool1).1.workerInPool w = some q
    rw [Bwip, hwip]
    by_cases he : q = pid
    · rw [he, upd_self] at hq3
      cases hq3
      rw [Bwk.trans hp1wk] at hw
      rw [he]
      exact Hw2p pid pool w hp hw
    · rw [upd_ne _ _ _ _ he, Bmp, hmp] at hq3
      exact Hw2p q p w hq3 hw
  · intro w q hw
    have hw2 : s.workerInPool w = some q := by
      have : ({ (try_process_withdraw_queue s2 pool1).1 with
        miningPools := upd (try_process_withdraw_queue s2 pool1).1.miningPools pid
          (some (try_process_withdraw_queue s2 pool1).2) } : State).workerInPool
          = s.workerInPool := Bwip.trans hwip
      rw [this] at hw
      exact hw
    obtain ⟨p, hp2, hmem⟩ := Hp2w w q hw2
    by_cases he : q = pid
    · subst he
      rw [hp] at hp2
      cases hp2
      refine ⟨(try_process_withdraw_queue s2 pool1).2, ?_, ?_⟩
      · show upd (try_process_withdraw_queue s2 pool1).1.miningPools q
          (some (try_process_withdraw_queue s2 pool1).2) q = _
        rw [upd_self]
      · rw [Bwk.trans hp1wk]
        exact hmem
    · refine ⟨p, ?_, hmem⟩
      show upd (try_process_withdraw_queue s2 pool1).1.miningPools pid
        (some (try_process_withdraw_queue s2 pool1).2) q = some p
      rw [upd_ne _ _ _ _ he, Bmp, hmp]
      exact hp2
  · intro w hw
    have hw2 : s.workerInPool w = none := by
      have : ({ (try_process_withdraw_queue s2 pool1).1 with
        miningPools := upd (try_process_withdraw_queue s2 pool1).1.miningPools pid
          (some (try_process_withdraw_queue s2 pool1).2) } : State).workerInPool
          = s.workerInPool := Bwip.trans hwip
      rw [this] at hw
      exact hw
    show (try_process_withdraw_queue s2 pool1).1.minerStake w = 0
    rw [Bms]
    have h1 := hms w
    have h2 := Hzero w hw2
    omega
  · intro q p hq2
    have hq3 : upd (try_process_withdraw_queue s2 pool1).1.miningPools pid
        (some (try_process_withdraw_queue s2 pool1).2) q = some p := hq2
    by_cases he : q = pid
    · rw [he, upd_self] at hq3
      cases hq3
      have hmt : minerTotal { (try_process_withdraw_queue s2 pool1).1 with
          miningPools := upd (try_process_withdraw_queue s2 pool1).1.miningPools pid
            (some (try_process_withdraw_queue s2 pool1).2) }
          (try_process_withdraw_queue s2 pool1).2 = minerTotal s2 pool := by
        unfold minerTotal
        rw [Bwk.trans hp1wk]
        have : ({ (try_process_withdraw_queue s2 pool1).1 with
          miningPools := upd (try_process_withdraw_queue s2 pool1).1.miningPools pid
            (some (try_process_withdraw_queue s2 pool1).2) } : State).minerStake
            = s2.minerStake := Bms
        rw [this]
      rw [hmt]
      obtain ⟨d, hd, hdf, hdt⟩ := B2
      omega
    · rw [upd_ne _ _ _ _ he, Bmp, hmp] at hq3
      have hmt : minerTotal { (try_process_withdraw_queue s2 pool1).1 with
          miningPools := upd (try_process_withdraw_queue s2 pool1).1.miningPools pid
            (some (try_process_withdraw_queue s2 pool1).2) } p ≤ minerTotal s p := by
        unfold minerTotal
        have : ({ (try_process_withdraw_queue s2 pool1).1 with
          miningPools := upd (try_process_withdraw_queue s2 pool1).1.miningPools pid
            (some (try_process_withdraw_queue s2 pool1).2) } : State).minerStake
            = s2.minerStake := Bms
        rw [this]
        exact sum_map_mono s.minerStake s2.minerStake p.workers hms
      have := Hsb q p hq3
      omega
  · intro q p hq2 hne
    have hq3 : upd (try_process_withdraw_queue s2 pool1).1.miningPools pid
        (some (try_process_withdraw_queue s2 pool1).2) q = some p := hq2
    by_cases he : q = pid
    · rw [he, upd_self] at hq3
      cases hq3
      rcases B3 with hz | hq0
      · exact hz
      · exact absurd hq0 hne
    · rw [upd_ne _ _ _ _ he, Bmp, hmp] at hq3
      exact Hqf q p hq3 hne
  · intro q p wi hq2 hwi
    have hq3 : upd (try_process_withdraw_queue s2 pool1).1.miningPools pid
        (some (try_process_withdraw_queue s2 pool1).2) q = some p := hq2
    show ((try_process_withdraw_queue s2 pool1).1.stakingInfo (q, wi.user)).isSome = true
    by_cases he : q = pid
    · rw [he, upd_self] at hq3
      cases hq3
      obtain ⟨w0, hw0, hueq⟩ := B4 wi hwi
      rw [hp1q] at hw0
      rw [hueq, he]
      exact B6 _ (hsi _ (Hqu pid pool w0 hp hw0))
    · rw [upd_ne _ _ _ _ he, Bmp, hmp] at hq3
      exact B6 _ (hsi _ (Hqu q p wi hq3 hwi))
  · intro q a hk
    have hk2 : ((try_process_withdraw_queue s2 pool1).1.stakingInfo (q, a)).isSome = true := hk
    by_cases he : q = pid
    · show (upd (try_process_withdraw_queue s2 pool1).1.miningPools pid
        (some (try_process_withdraw_queue s2 pool1).2) q).isSome = true
      rw [he, upd_self]
      rfl
    · show (upd (try_process_withdraw_queue s2 pool1).1.miningPools pid
        (some (try_process_withdraw_queue s2 pool1).2) q).isSome = true
      rw [upd_ne _ _ _ _ he, Bmp, hmp]
      obtain ⟨u, hu⟩ := Option.isSome_iff_exists.mp hk2
      rcases B7 (q, a) u hu with h2 | ⟨hqe, _⟩
      · rcases hsi2 (q, a) u h2 with h3 | ⟨hqe, _⟩
        · exact Hsp q a (by rw [h3]; rfl)
        · exact absurd hqe he
      · rw [hp1pid] at hqe
        exact absurd hqe he
  · intro q a u p hk hq2
    have hk2 : (try_process_withdraw_queue s2 pool1).1.stakingInfo (q, a) = some u := hk
    have hq3 : upd (try_process_withdraw_queue s2 pool1).1.miningPools pid
        (some (try_process_withdraw_queue s2 pool1).2) q = some p := hq2
    by_cases he : q = pid
    · rw [he, upd_self] at hq3
      cases hq3
      have hacc2 : (try_process_withdraw_queue s2 pool1).2.pool_acc = pool1.pool_acc := Bacc
      rcases B7 (q, a) u hk2 with h2 | ⟨_, hanch, _⟩
      · rcases hsi2 (q, a) u h2 with h3 | ⟨_, hanch, _⟩
        · have := Hdb q a u pool (h3) (by rw [he]; exact hp)
          rw [hacc2, hp1acc]
          exact this
        · rw [hacc2, hanch]
      · rw [hacc2, hanch]
    · rw [upd_ne _ _ _ _ he, Bmp, hmp] at hq3
      rcases B7 (q, a) u hk2 with h2 | ⟨hqe, _⟩
      · rcases hsi2 (q, a) u h2 with h3 | ⟨hqe, _⟩
        · exact Hdb q a u p h3 hq3
        · exact absurd hqe he
      · rw [hp1pid] at hqe
        exact absurd hqe he
  · intro q a u hk
    have hk2 : (try_process_withdraw_queue s2 pool1).1.stakingInfo (q, a) = some u := hk
    rcases B7 (q, a) u hk2 with h2 | ⟨_, _, u0, hs2u0, huser⟩
    · exact hkey2 (q, a) u h2
    · rw [huser]
      exact hkey2 (q, a) u0 hs2u0

theorem handle_fields (p : PoolInfo) (r : Nat) :
    (handle_pool_new_reward p r).pid = p.pid ∧
    (handle_pool_new_reward p r).workers = p.workers ∧
    (handle_pool_new_reward p r).withdraw_queue = p.withdraw_queue ∧
    (handle_pool_new_reward p r).free_stake = p.free_stake ∧
    (handle_pool_new_reward p r).total_stake = p.total_stake ∧
    p.pool_acc ≤ (handle_pool_new_reward p r).pool_acc := by
  unfold handle_pool_new_reward add_reward
  split
  · exact ⟨rfl, rfl, rfl, rfl, rfl, Nat.le_add_right _ _⟩
  · exact ⟨rfl, rfl, rfl, rfl, rfl, Nat.le_refl _⟩

theorem sinv_set_cap (s : State) (c pid cap : Nat) (h : SInv s) :
    SInv (set_cap s c pid cap).1 := by
  unfold set_cap
  cases hp : s.miningPools pid with
  | none => exact h
  | some pool =>
      dsimp only
      by_cases ho : pool.owner ≠ c
      · rw [if_pos ho]
        exact h
      · rw [if_neg ho]
        by_cases hc : ¬ pool.total_stake ≤ cap
        · rw [if_pos hc]
          exact h
        · rw [if_neg hc]
          refine sinv_emit _ _ ?_
          refine sinv_set_pool s pid pool { pool with cap := some cap } h hp rfl rfl
            (Nat.le_refl _) ?_ ?_ ?_
          · exact (h.stake_bound pid pool hp)
          · exact h.queue_free pid pool hp
          · intro wi hwi
            exact h.queue_users pid pool wi hp hwi

theorem sinv_set_payout_pref (s : State) (c pid com : Nat) (h : SInv s) :
    SInv (set_payout_pref s c pid com).1 := by
  unfold set_payout_pref
  cases hp : s.miningPools pid with
  | none => exact h
  | some pool =>
      dsimp only
      by_cases ho : pool.owner ≠ c
      · rw [if_pos ho]
        exact h
      · rw [if_neg ho]
        refine sinv_emit _ _ ?_
        refine sinv_set_pool s pid pool { pool with payout_commission := some com } h hp rfl rfl
          (Nat.le_refl _) ?_ ?_ ?_
        · exact (h.stake_bound pid pool hp)
        · exact h.queue_free pid pool hp
        · intro wi hwi
          exact h.queue_users pid pool wi hp hwi

theorem sinv_on_reward (s : State) (w payout : Nat) (h : SInv s) :
    SInv (on_reward_one s w payout) := by
  unfold on_reward_one
  cases hw : s.workerInPool w with
  | none => exact h
  | some pid =>
      dsimp only
      cases hp : s.miningPools pid with
      | none => exact h
      | some pool =>
          obtain ⟨f1, f2, f3, f4, f5, f6⟩ := handle_fields pool payout
          refine sinv_set_pool s pid pool (handle_pool_new_reward pool payout) h hp f1 f2 f6
            ?_ ?_ ?_
          · rw [f4, f5]
            exact h.stake_bound pid pool hp
          · rw [f3, f4]
            exact h.queue_free pid pool hp
          · rw [f3]
            intro wi hwi
            exact h.queue_users pid pool wi hp hwi

theorem sinv_claim_reward (s : State) (who pid target : Nat) (ok : Bool) (h : SInv s) :
    SInv (claim_reward s who pid target ok).1 := by
  unfold claim_reward
  cases hu : s.stakingInfo (pid, who) with
  | none => exact h
  | some user0 =>
      dsimp only
      cases hp : s.miningPools pid with
      | none => exact h
      | some pool =>
          dsimp only
          by_cases ht : ¬ ok = true
          · rw [if_pos ht]
            exact h
          · rw [if_neg ht]
            refine sinv_emit _ _ ?_
            have h1 : SInv { s with freeBalance := upd s.freeBalance target (s.freeBalance target + (clear_user_pending_reward pool user0).available_rewards) } :=
              sinv_transport s _ h rfl rfl rfl rfl rfl
            refine sinv_insert_user _ pid who
              { clear_user_pending_reward pool user0 with available_rewards := 0 } pool h1
              hp (Nat.le_of_eq rfl) ?_
            show (clear_user_pending_reward pool user0).user = who
            exact h.keyed pid who user0 hu

theorem sum_map_append_one (f : Nat → Nat) (l : List Nat) (x : Nat) :
    ((l ++ [x]).map f).sum = (l.map f).sum + f x := by
  simp

theorem sinv_add_worker_core (s : State) (pid w : Nat) (pool : PoolInfo) (h : SInv s)
    (hp : s.miningPools pid = some pool) (hnm : w ∉ pool.workers)
    (hnb : s.workerInPool w = none) :
    SInv { s with
           miningPools := upd s.miningPools pid
             (some { pool with workers := pool.workers ++ [w] }),
           workerInPool := upd s.workerInPool w (some pid) } := by
  obtain ⟨Hpid, Hfresh, Hnodup, Hw2p, Hp2w, Hzero, Hsb, Hqf, Hqu, Hsp, Hdb, Hkey⟩ := h
  have hplt : ¬ s.poolCount ≤ pid := by
    intro hle
    rw [Hfresh pid hle] at hp
    cases hp
  refine ⟨?_, ?_, ?_, ?_, ?_, ?_, ?_, ?_, ?_, ?_, ?_, ?_⟩
  · intro q p hq2
    have hq3 : upd s.miningPools pid (some { pool with workers := pool.workers ++ [w] }) q
        = some p := hq2
    by_cases he : q = pid
    · rw [he, upd_self] at hq3
      cases hq3
      rw [he]
      exact Hpid pid pool hp
    · rw [upd_ne _ _ _ _ he] at hq3
      exact Hpid q p hq3
  · intro q hge
    have hne : q ≠ pid := by
      rintro rfl
      exact hplt hge
    show upd s.miningPools pid (some { pool with workers := pool.workers ++ [w] }) q = none
    rw [upd_ne _ _ _ _ hne]
    exact Hfresh q hge
  · intro q p hq2
    have hq3 : upd s.miningPools pid (some { pool with workers := pool.workers ++ [w] }) q
        = some p := hq2
    by_cases he : q = pid
    · rw [he, upd_self] at hq3
      cases hq3
      refine List.Nodup.append (Hnodup pid pool hp) (List.nodup_singleton w) ?_
      intro x hx hxw
      rw [List.mem_singleton.mp hxw] at hx
      exact hnm hx
    · rw [upd_ne _ _ _ _ he] at hq3
      exact Hnodup q p hq3
  · intro q p w2 hq2 hw2
    have hq3 : upd s.miningPools pid (some { pool with workers := pool.workers ++ [w] }) q
        = some p := hq2
    show upd s.workerInPool w (some pid) w2 = some q
    by_cases he : q = pid
    · rw [he, upd_self] at hq3
      cases hq3
      rcases List.mem_append.mp hw2 with hl | hr
      · have hne : w2 ≠ w := by
          rintro rfl
          exact hnm hl
        rw [upd_ne _ _ _ _ hne, he]
        exact Hw2p pid pool w2 hp hl
      · rw [List.mem_singleton.mp hr, upd_self, he]
    · rw [upd_ne _ _ _ _ he] at hq3
      have hne : w2 ≠ w := by
        rintro rfl
        rw [Hw2p q p w2 hq3 hw2] at hnb
        cases hnb
      rw [upd_ne _ _ _ _ hne]
      exact Hw2p q p w2 hq3 hw2
  · intro w2 q hw2
    have hw3 : upd s.workerInPool w (some pid) w2 = some q := hw2
    by_cases he : w2 = w
    · rw [he, upd_self] at hw3
      cases hw3
      refine ⟨{ pool with workers := pool.workers ++ [w] }, ?_, ?_⟩
      · show upd s.miningPools pid (some { pool with workers := pool.workers ++ [w] }) pid = _
        rw [upd_self]
      · rw [he]
        exact List.mem_append.mpr (Or.inr (List.mem_singleton.mpr rfl))
    · rw [upd_ne _ _ _ _ he] at hw3
      obtain ⟨p, hp2, hmem⟩ := Hp2w w2 q hw3
      by_cases hqe : q = pid
      · subst hqe
        rw [hp] at hp2
        cases hp2
        refine ⟨{ pool with workers := pool.workers ++ [w] }, ?_, ?_⟩
        · show upd s.miningPools q (some { pool with workers := pool.workers ++ [w] }) q = _
          rw [upd_self]
        · exact List.mem_append.mpr (Or.inl hmem)
      · refine ⟨p, ?_, hmem⟩
        show upd s.miningPools pid (some { pool with workers := pool.workers ++ [w] }) q
            = some p
        rw [upd_ne _ _ _ _ hqe]
        exact hp2
  · intro w2 hw2
    have hw3 : upd s.workerInPool w (some pid) w2 = none := hw2
    by_cases he : w2 = w
    · rw [he, upd_self] at hw3
      cases hw3
    · rw [upd_ne _ _ _ _ he] at hw3
      exact Hzero w2 hw3
  · intro q p hq2
    have hq3 : upd s.miningPools pid (some { pool with workers := pool.workers ++ [w] }) q
        = some p := hq2
    by_cases he : q = pid
    · rw [he, upd_self] at hq3
      cases hq3
      have hmt : minerTotal { s with
          miningPools := upd s.miningPools pid
            (some { pool with workers := pool.workers ++ [w] }),
          workerInPool := upd s.workerInPool w (some pid) }
          { pool with workers := pool.workers ++ [w] } = minerTotal s pool := by
        unfold minerTotal
        show ((pool.workers ++ [w]).map s.minerStake).sum = _
        rw [sum_map_append_one, Hzero w hnb]
        omega
      rw [hmt]
      exact Hsb pid pool hp
    · rw [upd_ne _ _ _ _ he] at hq3
      exact Hsb q p hq3
  · intro q p hq2 hne
    have hq3 : upd s.miningPools pid (some { pool with workers := pool.workers ++ [w] }) q
        = some p := hq2
    by_cases he : q = pid
    · rw [he, upd_self] at hq3
      cases hq3
      exact Hqf pid pool hp hne
    · rw [upd_ne _ _ _ _ he] at hq3
      exact Hqf q p hq3 hne
  · intro q p wi hq2 hwi
    have hq3 : upd s.miningPools pid (some { pool with workers := pool.workers ++ [w] }) q
        = some p := hq2
    by_cases he : q = pid
    · rw [he, upd_self] at hq3
      cases hq3
      rw [he]
      exact Hqu pid pool wi hp hwi
    · rw [upd_ne _ _ _ _ he] at hq3
      exact Hqu q p wi hq3 hwi
  · intro q a hk
    have hs2 := Hsp q a hk
    by_cases he : q = pid
    · rw [he]
      show (upd s.miningPools pid (some { pool with workers := pool.workers ++ [w] })
        pid).isSome = true
      rw [upd_self]; rfl
    · show (upd s.miningPools pid (some { pool with workers := pool.workers ++ [w] })
        q).isSome = true
      rw [upd_ne _ _ _ _ he]
      exact hs2
  · intro q a v p hk hq2
    have hq3 : upd s.miningPools pid (some { pool with workers := pool.workers ++ [w] }) q
        = some p := hq2
    by_cases he : q = pid
    · rw [he, upd_self] at hq3
      cases hq3
      rw [he] at hk
      exact Hdb pid a v pool hk hp
    · rw [upd_ne _ _ _ _ he] at hq3
      exact Hdb q a v p hk hq3
  · exact Hkey

theorem sinv_add_worker (s : State) (c pid w : Nat) (r o b : Bool) (h : SInv s) :
    SInv (add_worker s c pid w r o b).1 := by
  unfold add_worker
  by_cases hr : ¬ r = true
  · rw [if_pos hr]; exact h
  · rw [if_neg hr]
    by_cases ho : ¬ o = true
    · rw [if_pos ho]; exact h
    · rw [if_neg ho]
      by_cases hb : ¬ b = true
      · rw [if_pos hb]; exact h
      · rw [if_neg hb]
        cases hp : s.miningPools pid with
        | none => exact h
        | some pool =>
            dsimp only
            by_cases how : pool.owner ≠ c
            · rw [if_pos how]; exact h
            · rw [if_neg how]
              by_cases hm : w ∈ pool.workers
              · rw [if_pos hm]; exact h
              · rw [if_neg hm]
                by_cases hbd : (s.workerInPool w).isSome = true
                · rw [if_pos hbd]; exact h
                · rw [if_neg hbd]
                  refine sinv_emit _ _ ?_
                  have hnb : s.workerInPool w = none := by
                    cases hq : s.workerInPool w with
                    | none => rfl
                    | some q => rw [hq] at hbd; exact absurd rfl hbd
                  exact sinv_add_worker_core s pid w pool h hp hm hnb

theorem sinv_miner_mono (s : State) (g : Nat → Nat) (h : SInv s)
    (hle : ∀ x, g x ≤ s.minerStake x)
    (hz : ∀ x, s.workerInPool x = none → g x = 0) :
    SInv { s with minerStake := g } := by
  obtain ⟨Hpid, Hfresh, Hnodup, Hw2p, Hp2w, Hzero, Hsb, Hqf, Hqu, Hsp, Hdb, Hkey⟩ := h
  refine ⟨Hpid, Hfresh, Hnodup, Hw2p, Hp2w, hz, ?_, Hqf, Hqu, Hsp, Hdb, Hkey⟩
  intro pid p hp
  have hmt : minerTotal { s with minerStake := g } p ≤ minerTotal s p := by
    unfold minerTotal
    exact sum_map_mono s.minerStake g p.workers hle
  have := Hsb pid p hp
  omega

theorem sinv_start_core (s : State) (pid w st : Nat) (pool : PoolInfo) (h : SInv s)
    (hp : s.miningPools pid = some pool) (hw : w ∈ pool.workers)
    (hst : st ≤ pool.free_stake) :
    SInv { s with
           miningPools := upd s.miningPools pid
             (some { pool with free_stake := pool.free_stake - st }),
           minerStake := upd s.minerStake w st } := by
  obtain ⟨Hpid, Hfresh, Hnodup, Hw2p, Hp2w, Hzero, Hsb, Hqf, Hqu, Hsp, Hdb, Hkey⟩ := h
  have hplt : ¬ s.poolCount ≤ pid := by
    intro hle
    rw [Hfresh pid hle] at hp
    cases hp
  have hbound : s.workerInPool w = some pid := Hw2p pid pool w hp hw
  refine ⟨?_, ?_, ?_, ?_, ?_, ?_, ?_, ?_, ?_, ?_, ?_, ?_⟩
  · intro q p hq2
    have hq3 : upd s.miningPools pid (some { pool with free_stake := pool.free_stake - st }) q
        = some p := hq2
    by_cases he : q = pid
    · rw [he, upd_self] at hq3
      cases hq3
      rw [he]
      exact Hpid pid pool hp
    · rw [upd_ne _ _ _ _ he] at hq3
      exact Hpid q p hq3
  · intro q hge
    have hne : q ≠ pid := by
      rintro rfl
      exact hplt hge
    show upd s.miningPools pid (some { pool with free_stake := pool.free_stake - st }) q = none
    rw [upd_ne _ _ _ _ hne]
    exact Hfresh q hge
  · intro q p hq2
    have hq3 : upd s.miningPools pid (some { pool with free_stake := pool.free_stake - st }) q
        = some p := hq2
    by_cases he : q = pid
    · rw [he, upd_self] at hq3
      cases hq3
      exact Hnodup pid pool hp
    · rw [upd_ne _ _ _ _ he] at hq3
      exact Hnodup q p hq3
  · intro q p w2 hq2 hw2
    have hq3 : upd s.miningPools pid (some { pool with free_stake := pool.free_stake - st }) q
        = some p := hq2
    show s.workerInPool w2 = some q
    by_cases he : q = pid
    · rw [he, upd_self] at hq3
      cases hq3
      rw [he]
      exact Hw2p pid pool w2 hp hw2
    · rw [upd_ne _ _ _ _ he] at hq3
      exact Hw2p q p w2 hq3 hw2
  · intro w2 q hw2
    have hw3 : s.workerInPool w2 = some q := hw2
    obtain ⟨p, hp2, hmem⟩ := Hp2w w2 q hw3
    by_cases he : q = pid
    · subst he
      rw [hp] at hp2
      cases hp2
      refine ⟨{ pool with free_stake := pool.free_stake - st }, ?_, hmem⟩
      show upd s.miningPools q (some { pool with free_stake := pool.free_stake - st }) q = _
      rw [upd_self]
    · refine ⟨p, ?_, hmem⟩
      show upd s.miningPools pid (some { pool with free_stake := pool.free_stake - st }) q
          = some p
      rw [upd_ne _ _ _ _ he]
      exact hp2
  · intro w2 hw2
    have hw3 : s.workerInPool w2 = none := hw2
    have hne : w2 ≠ w := by
      rintro rfl
      rw [hbound] at hw3
      cases hw3
    show upd s.minerStake w st w2 = 0
    rw [upd_ne _ _ _ _ hne]
    exact Hzero w2 hw3
  · intro q p hq2
    have hq3 : upd s.miningPools pid (some { pool with free_stake := pool.free_stake - st }) q
        = some p := hq2
    by_cases he : q = pid
    · rw [he, upd_self] at hq3
      cases hq3
      have hsum := sum_map_upd_mem s.minerStake pool.workers w st (Hnodup pid pool hp) hw
      have hmt : minerTotal { s with
          miningPools := upd s.miningPools pid
            (some { pool with free_stake := pool.free_stake - st }),
          minerStake := upd s.minerStake w st }
          { pool with free_stake := pool.free_stake - st }
          = (pool.workers.map (upd s.minerStake w st)).sum := rfl
      rw [hmt]
      show pool.free_stake - st + (pool.workers.map (upd s.minerStake w st)).sum
        ≤ pool.total_stake
      have := Hsb pid pool hp
      unfold minerTotal at this
      omega
    · rw [upd_ne _ _ _ _ he] at hq3
      have hnmem : w ∉ p.workers := by
        intro hmem
        rw [Hw2p q p w hq3 hmem] at hbound
        cases hbound
        exact he rfl
      have hmt : minerTotal { s with
          miningPools := upd s.miningPools pid
            (some { pool with free_stake := pool.free_stake - st }),
          minerStake := upd s.minerStake w st } p = minerTotal s p := by
        unfold minerTotal
        show (p.workers.map (upd s.minerStake w st)).sum = _
        exact sum_map_upd_not_mem s.minerStake p.workers w st hnmem
      rw [hmt]
      exact Hsb q p hq3
  · intro q p hq2 hne
    have hq3 : upd s.miningPools pid (some { pool with free_stake := pool.free_stake - st }) q
        = some p := hq2
    by_cases he : q = pid
    · rw [he, upd_self] at hq3
      cases hq3
      have h0 := Hqf pid pool hp hne
      show pool.free_stake - st = 0
      omega
    · rw [upd_ne _ _ _ _ he] at hq3
      exact Hqf q p hq3 hne
  · intro q p wi hq2 hwi
    have hq3 : upd s.miningPools pid (some { pool with free_stake := pool.free_stake - st }) q
        = some p := hq2
    by_cases he : q = pid
    · rw [he, upd_self] at hq3
      cases hq3
      rw [he]
      exact Hqu pid pool wi hp hwi
    · rw [upd_ne _ _ _ _ he] at hq3
      exact Hqu q p wi hq3 hwi
  · intro q a hk
    have hs2 := Hsp q a hk
    by_cases he : q = pid
    · rw [he]
      show (upd s.miningPools pid (some { pool with free_stake := pool.free_stake - st })
        pid).isSome = true
      rw [upd_self]; rfl
    · show (upd s.miningPools pid (some { pool with free_stake := pool.free_stake - st })
        q).isSome = true
      rw [upd_ne _ _ _ _ he]
      exact hs2
  · intro q a v p hk hq2
    have hq3 : upd s.miningPools pid (some { pool with free_stake := pool.free_stake - st }) q
        = some p := hq2
    by_cases he : q = pid
    · rw [he, upd_self] at hq3
      cases hq3
      rw [he] at hk
      exact Hdb pid a v pool hk hp
    · rw [upd_ne _ _ _ _ he] at hq3
      exact Hdb q a v p hk hq3
  · exact Hkey

theorem sinv_start_mining (s : State) (c pid w st : Nat) (ok : Bool) (h : SInv s) :
    SInv (start_mining s c pid w st ok).1 := by
  unfold start_mining
  cases hp : s.miningPools pid with
  | none => exact h
  | some pool =>
      dsimp only
      by_cases how : pool.owner ≠ c
      · rw [if_pos how]; exact h
      · rw [if_neg how]
        by_cases hst : ¬ st ≤ pool.free_stake
        · rw [if_pos hst]; exact h
        · rw [if_neg hst]
          by_cases hm : ¬ w ∈ pool.workers
          · rw [if_pos hm]; exact h
          · rw [if_neg hm]
            by_cases hok : ok = true
            · rw [if_pos hok]
              exact sinv_start_core s pid w st pool h hp (not_not.mp hm) (not_not.mp (by exact hst))
            · rw [if_neg hok]
              refine sinv_miner_mono s (upd (upd s.minerStake w st) w 0) h ?_ ?_
              · intro x
                by_cases hx : x = w
                · rw [hx, upd_self]
                  exact Nat.zero_le _
                · rw [upd_ne _ _ _ _ hx, upd_ne _ _ _ _ hx]
              · intro x hxz
                by_cases hx : x = w
                · rw [hx, upd_self]
                · rw [upd_ne _ _ _ _ hx, upd_ne _ _ _ _ hx]
                  exact h.unbound_zero x hxz

theorem sinv_on_cleanup (s : State) (w d : Nat) (h : SInv s) (hd : d ≤ s.minerStake w) :
    SInv (on_cleanup s w d) := by
  unfold on_cleanup
  cases hw : s.workerInPool w with
  | none => exact h
  | some pid =>
      dsimp only
      cases hp : s.miningPools pid with
      | none => exact h
      | some pool =>
          dsimp only
          have hwmem : w ∈ pool.workers := by
            obtain ⟨p2, hp2, hm⟩ := h.pool_of_worker w pid hw
            rw [hp] at hp2
            cases hp2
            exact hm
          refine sinv_process_and_insert s { s with minerStake := upd s.minerStake w 0 }
            pid pool { pool with free_stake := pool.free_stake + d } h hp rfl rfl rfl
            ?_ (fun k hk => hk) (fun k u hk => Or.inl hk)
            (fun k u hk => h.keyed k.1 k.2 u hk)
            (h.pid_eq pid pool hp) rfl rfl rfl ?_
          · intro x
            by_cases hx : x = w
            · rw [hx]
              show upd s.minerStake w 0 w ≤ _
              rw [upd_self]
              exact Nat.zero_le _
            · show upd s.minerStake w 0 x ≤ _
              rw [upd_ne _ _ _ _ hx]
          · show pool.free_stake + d +
              minerTotal { s with minerStake := upd s.minerStake w 0 } pool ≤ pool.total_stake
            have hsum := sum_map_upd_mem s.minerStake pool.workers w 0
              (h.workers_nodup pid pool hp) hwmem
            have hsb := h.stake_bound pid pool hp
            unfold minerTotal at hsb ⊢
            show pool.free_stake + d + (pool.workers.map (upd s.minerStake w 0)).sum
              ≤ pool.total_stake
            omega

theorem sinv_deposit_core (s : State) (pid who amount : Nat) (pool : PoolInfo)
    (u1 : UserStakeInfo) (h : SInv s) (hp : s.miningPools pid = some pool)
    (hdb : u1.user_debt = u1.amount * pool.pool_acc / SCALE)
    (huser : u1.user = who) :
    SInv { (try_process_withdraw_queue (ledger_accrue { s with stakingInfo := upd s.stakingInfo (pid, who) (some u1) } who amount) { pool with total_stake := pool.total_stake + amount, free_stake := pool.free_stake + amount }).1 with
           miningPools := upd (try_process_withdraw_queue (ledger_accrue { s with stakingInfo := upd s.stakingInfo (pid, who) (some u1) } who amount) { pool with total_stake := pool.total_stake + amount, free_stake := pool.free_stake + amount }).1.miningPools pid
             (some (try_process_withdraw_queue (ledger_accrue { s with stakingInfo := upd s.stakingInfo (pid, who) (some u1) } who amount) { pool with total_stake := pool.total_stake + amount, free_stake := pool.free_stake + amount }).2) } := by
  refine sinv_process_and_insert s
    (ledger_accrue { s with stakingInfo := upd s.stakingInfo (pid, who) (some u1) } who amount)
    pid pool
    { pool with total_stake := pool.total_stake + amount,
                free_stake := pool.free_stake + amount } h hp
    (ledger_accrue_miningPools _ who amount)
    (ledger_accrue_poolCount _ who amount)
    (ledger_accrue_workerInPool _ who amount)
    ?_ ?_ ?_ ?_ (h.pid_eq pid pool hp) rfl rfl rfl ?_
  · intro x
    rw [ledger_accrue_minerStake]
  · intro k hk
    rw [ledger_accrue_stakingInfo]
    show (upd s.stakingInfo (pid, who) (some u1) k).isSome = true
    by_cases hke : k = ((pid : Nat), who)
    · rw [hke, upd_self]; rfl
    · rw [upd_ne _ _ _ _ hke]; exact hk
  · intro k u hk
    rw [ledger_accrue_stakingInfo] at hk
    have hk2 : upd s.stakingInfo (pid, who) (some u1) k = some u := hk
    by_cases hke : k = ((pid : Nat), who)
    · rw [hke, upd_self] at hk2
      cases hk2
      refine Or.inr ⟨by rw [hke], hdb, ?_⟩
      rw [hke]
      exact huser
    · rw [upd_ne _ _ _ _ hke] at hk2
      exact Or.inl hk2
  · intro k u hk
    rw [ledger_accrue_stakingInfo] at hk
    have hk2 : upd s.stakingInfo (pid, who) (some u1) k = some u := hk
    by_cases hke : k = ((pid : Nat), who)
    · rw [hke, upd_self] at hk2
      cases hk2
      rw [hke]
      exact huser
    · rw [upd_ne _ _ _ _ hke] at hk2
      exact h.keyed k.1 k.2 u hk2
  · have hsb := h.stake_bound pid pool hp
    unfold minerTotal at hsb ⊢
    rw [ledger_accrue_minerStake]
    show pool.free_stake + amount + (pool.workers.map s.minerStake).sum
      ≤ pool.total_stake + amount
    omega

theorem sinv_deposit (md : Nat) (s : State) (who pid amount : Nat) (h : SInv s) :
    SInv (deposit md s who pid amount).1 := by
  unfold deposit
  by_cases hmd : amount < md
  · rw [if_pos hmd]; exact h
  · rw [if_neg hmd]
    by_cases hfb : s.freeBalance who < amount
    · rw [if_pos hfb]; exact h
    · rw [if_neg hfb]
      cases hp : s.miningPools pid with
      | none => exact h
      | some pool =>
          dsimp only
          by_cases hcap : (match pool.cap with
            | some c => decide (c - pool.total_stake < amount)
            | none => false) = true
          · rw [if_pos hcap]; exact h
          · rw [if_neg hcap]
            refine sinv_emit _ _ ?_
            cases hu : s.stakingInfo (pid, who) with
            | some u0 =>
                dsimp only
                exact sinv_deposit_core s pid who amount pool
                  (clear_pending_reward
                    { clear_user_pending_reward pool u0 with
                      amount := (clear_user_pending_reward pool u0).amount + amount }
                    pool.pool_acc) h hp rfl (h.keyed pid who u0 hu)
            | none =>
                dsimp only
                exact sinv_deposit_core s pid who amount pool
                  (clear_pending_reward
                    { (⟨who, 0, 0, 0⟩ : UserStakeInfo) with
                      amount := (⟨who, 0, 0, 0⟩ : UserStakeInfo).amount + amount }
                    pool.pool_acc) h hp rfl rfl

theorem sinv_withdraw_queued (s : State) (pid who amount now : Nat) (pool : PoolInfo)
    (user : UserStakeInfo) (h : SInv s) (hp : s.miningPools pid = some pool)
    (hu : s.stakingInfo (pid, who) = some user)
    (hne : pool.withdraw_queue ≠ []) :
    SInv { { (maybe_add_withdraw_queue s now pool.pid) with stakingInfo := upd (maybe_add_withdraw_queue s now pool.pid).stakingInfo (pid, who) (some user) } with
           miningPools := upd (maybe_add_withdraw_queue s now pool.pid).miningPools pid (some { pool with withdraw_queue := pool.withdraw_queue ++ [⟨who, amount, now⟩] }) } := by
  have h1 : SInv (maybe_add_withdraw_queue s now pool.pid) :=
    sinv_transport s _ h rfl rfl rfl rfl rfl
  have h2 : SInv { (maybe_add_withdraw_queue s now pool.pid) with stakingInfo := upd (maybe_add_withdraw_queue s now pool.pid).stakingInfo (pid, who) (some user) } :=
    sinv_insert_user _ pid who user pool h1 hp
      (h.debt_bound pid who user pool hu hp) (h.keyed pid who user hu)
  refine sinv_set_pool _ pid pool
    { pool with withdraw_queue := pool.withdraw_queue ++ [⟨who, amount, now⟩] } h2 hp
    rfl rfl (Nat.le_refl _) ?_ ?_ ?_
  · exact h.stake_bound pid pool hp
  · intro _
    exact h.queue_free pid pool hp hne
  · intro wi hwi
    have hwi2 : wi ∈ pool.withdraw_queue ++ [⟨who, amount, now⟩] := hwi
    show (upd (maybe_add_withdraw_queue s now pool.pid).stakingInfo (pid, who) (some user)
      (pid, wi.user)).isSome = true
    rcases List.mem_append.mp hwi2 with hl | hr
    · by_cases hke : ((pid : Nat), wi.user) = ((pid : Nat), who)
      · rw [hke, upd_self]; rfl
      · rw [upd_ne _ _ _ _ hke]
        exact h.queue_users pid pool wi hp hl
    · have : wi = ⟨who, amount, now⟩ := List.mem_singleton.mp hr
      rw [this, upd_self]
      rfl

theorem sinv_withdraw_now (s : State) (pid who amount : Nat) (pool : PoolInfo)
    (user : UserStakeInfo) (h : SInv s) (hp : s.miningPools pid = some pool)
    (hu : s.stakingInfo (pid, who) = some user)
    (hqe : pool.withdraw_queue = []) (hfa : amount ≤ pool.free_stake) :
    SInv { { (emit (ledger_reduce s user.user amount) (Event.Withdraw pool.pid user.user amount)) with stakingInfo := upd (emit (ledger_reduce s user.user amount) (Event.Withdraw pool.pid user.user amount)).stakingInfo (pid, who) (some (clear_pending_reward { user with amount := user.amount - amount } pool.pool_acc)) } with
           miningPools := upd (emit (ledger_reduce s user.user amount) (Event.Withdraw pool.pid user.user amount)).miningPools pid (some { pool with free_stake := pool.free_stake - amount, total_stake := pool.total_stake - amount }) } := by
  have h1 : SInv (emit (ledger_reduce s user.user amount) (Event.Withdraw pool.pid user.user amount)) :=
    sinv_transport s _ h (ledger_reduce_miningPools s user.user amount)
      (ledger_reduce_stakingInfo s user.user amount)
      (ledger_reduce_poolCount s user.user amount)
      (ledger_reduce_workerInPool s user.user amount)
      (ledger_reduce_minerStake s user.user amount)
  have hp2 : (emit (ledger_reduce s user.user amount) (Event.Withdraw pool.pid user.user amount)).miningPools pid = some pool := by
    show (ledger_reduce s user.user amount).miningPools pid = some pool
    rw [ledger_reduce_miningPools]
    exact hp
  have h2 := sinv_insert_user _ pid who
    (clear_pending_reward { user with amount := user.amount - amount } pool.pool_acc) pool h1
    hp2 (Nat.le_of_eq rfl) (h.keyed pid who user hu)
  refine sinv_set_pool _ pid pool
    { pool with free_stake := pool.free_stake - amount,
                total_stake := pool.total_stake - amount } h2 hp2
    rfl rfl (Nat.le_refl _) ?_ ?_ ?_
  · show pool.free_stake - amount + minerTotal _ pool ≤ pool.total_stake - amount
    have hsb := h.stake_bound pid pool hp
    unfold minerTotal at hsb ⊢
    dsimp only [emit]
    rw [ledger_reduce_minerStake]
    show pool.free_stake - amount + (pool.workers.map s.minerStake).sum
      ≤ pool.total_stake - amount
    omega
  · intro hne2
    have hne3 : pool.withdraw_queue ≠ [] := hne2
    exact absurd hqe hne3
  · intro wi hwi
    have hwi2 : wi ∈ pool.withdraw_queue := hwi
    rw [hqe] at hwi2
    cases hwi2

theorem sinv_withdraw_partial (s : State) (pid who amount now : Nat) (pool : PoolInfo)
    (user : UserStakeInfo) (h : SInv s) (hp : s.miningPools pid = some pool)
    (hu : s.stakingInfo (pid, who) = some user)
    (hqe : pool.withdraw_queue = []) :
    SInv { { (maybe_add_withdraw_queue (emit (ledger_reduce s user.user pool.free_stake) (Event.Withdraw pool.pid user.user pool.free_stake)) now pool.pid) with stakingInfo := upd (maybe_add_withdraw_queue (emit (ledger_reduce s user.user pool.free_stake) (Event.Withdraw pool.pid user.user pool.free_stake)) now pool.pid).stakingInfo (pid, who) (some (clear_pending_reward { user with amount := user.amount - pool.free_stake } pool.pool_acc)) } with
           miningPools := upd (maybe_add_withdraw_queue (emit (ledger_reduce s user.user pool.free_stake) (Event.Withdraw pool.pid user.user pool.free_stake)) now pool.pid).miningPools pid (some { pool with total_stake := pool.total_stake - pool.free_stake, free_stake := 0, withdraw_queue := pool.withdraw_queue ++ [⟨user.user, amount - pool.free_stake, now⟩] }) } := by
  have h1 : SInv (maybe_add_withdraw_queue (emit (ledger_reduce s user.user pool.free_stake) (Event.Withdraw pool.pid user.user pool.free_stake)) now pool.pid) :=
    sinv_transport s _ h (ledger_reduce_miningPools s user.user pool.free_stake)
      (ledger_reduce_stakingInfo s user.user pool.free_stake)
      (ledger_reduce_poolCount s user.user pool.free_stake)
      (ledger_reduce_workerInPool s user.user pool.free_stake)
      (ledger_reduce_minerStake s user.user pool.free_stake)
  have hp2 : (maybe_add_withdraw_queue (emit (ledger_reduce s user.user pool.free_stake) (Event.Withdraw pool.pid user.user pool.free_stake)) now pool.pid).miningPools pid = some pool := by
    show (ledger_reduce s user.user pool.free_stake).miningPools pid = some pool
    rw [ledger_reduce_miningPools]
    exact hp
  have h2 := sinv_insert_user _ pid who
    (clear_pending_reward { user with amount := user.amount - pool.free_stake } pool.pool_acc)
    pool h1 hp2 (Nat.le_of_eq rfl) (h.keyed pid who user hu)
  refine sinv_set_pool _ pid pool
    { pool with total_stake := pool.total_stake - pool.free_stake, free_stake := 0,
                withdraw_queue := pool.withdraw_queue ++ [⟨user.user, amount - pool.free_stake, now⟩] }
    h2 hp2 rfl rfl (Nat.le_refl _) ?_ ?_ ?_
  · show 0 + minerTotal _ pool ≤ pool.total_stake - pool.free_stake
    have hsb := h.stake_bound pid pool hp
    unfold minerTotal at hsb ⊢
    dsimp only [maybe_add_withdraw_queue, emit]
    rw [ledger_reduce_minerStake]
    show 0 + (pool.workers.map s.minerStake).sum ≤ pool.total_stake - pool.free_stake
    omega
  · intro _
    rfl
  · intro wi hwi
    have hwi2 : wi ∈ pool.withdraw_queue ++ [⟨user.user, amount - pool.free_stake, now⟩] := hwi
    rw [hqe] at hwi2
    have hwe : wi = ⟨user.user, amount - pool.free_stake, now⟩ := List.mem_singleton.mp hwi2
    show (upd (maybe_add_withdraw_queue (emit (ledger_reduce s user.user pool.free_stake) (Event.Withdraw pool.pid user.user pool.free_stake)) now pool.pid).stakingInfo (pid, who)
      (some (clear_pending_reward { user with amount := user.amount - pool.free_stake } pool.pool_acc)) (pid, wi.user)).isSome = true
    have hwu : wi.user = who := by
      rw [hwe]
      exact h.keyed pid who user hu
    rw [hwu, upd_self]
    rfl

theorem sinv_withdraw (s : State) (who pid amount now : Nat) (h : SInv s) :
    SInv (withdraw s who pid amount now).1 := by
  unfold withdraw
  cases hu : s.stakingInfo (pid, who) with
  | none => exact h
  | some user =>
      dsimp only
      by_cases hva : ¬ (0 < amount ∧ amount ≤ user.amount)
      · rw [if_pos hva]; exact h
      · rw [if_neg hva]
        cases hp : s.miningPools pid with
        | none => exact h
        | some pool =>
            dsimp only
            by_cases hq : ¬ pool.withdraw_queue.isEmpty = true
            · rw [if_pos hq]
              have hne : pool.withdraw_queue ≠ [] := by
                intro hnil
                exact hq (by rw [hnil]; rfl)
              exact sinv_withdraw_queued s pid who amount now pool user h hp hu hne
            · rw [if_neg hq]
              have hqe : pool.withdraw_queue = [] :=
                List.isEmpty_iff.mp (not_not.mp hq)
              unfold try_withdraw
              by_cases hfa : amount ≤ pool.free_stake
              · rw [if_pos hfa]
                exact sinv_withdraw_now s pid who amount pool user h hp hu hqe hfa
              · rw [if_neg hfa]
                exact sinv_withdraw_partial s pid who amount now pool user h hp hu hqe

theorem sinv_init : SInv initState := by
  refine ⟨?_, ?_, ?_, ?_, ?_, ?_, ?_, ?_, ?_, ?_, ?_, ?_⟩
  · intro pid p hp; cases hp
  · intro pid _; rfl
  · intro pid p hp; cases hp
  · intro pid p w hp; cases hp
  · intro w pid hw; cases hw
  · intro w _; rfl
  · intro pid p hp; cases hp
  · intro pid p hp; cases hp
  · intro pid p wi hp; cases hp
  · intro pid a hk; cases hk
  · intro pid a u p hk; cases hk
  · intro pid a u hk; cases hk

theorem sinv_step (md : Nat) (s : State) (c : OpCall) (h : SInv s) (hg : Good s c) :
    SInv (runOp md s c).1 := by
  cases c with
  | opCreate o => exact sinv_create s o h
  | opAddWorker caller pid w r o b => exact sinv_add_worker s caller pid w r o b h
  | opSetCap caller pid cap => exact sinv_set_cap s caller pid cap h
  | opSetPayoutPref caller pid com => exact sinv_set_payout_pref s caller pid com h
  | opClaimReward who pid t ok => exact sinv_claim_reward s who pid t ok h
  | opDeposit who pid a => exact sinv_deposit md s who pid a h
  | opWithdraw who pid a now => exact sinv_withdraw s who pid a now h
  | opStartMining caller pid w st ok => exact sinv_start_mining s caller pid w st ok h
  | opStopMining caller pid w ok => exact sinv_stop_mining s caller pid w ok h
  | opOnReward w payout => exact sinv_on_reward s w payout h
  | opOnCleanup w d => exact sinv_on_cleanup s w d h hg.2
  | opFund fb => exact sinv_fund s fb h

theorem reachable_sinv (md : Nat) (s : State) (h : Reachable md s) : SInv s := by
  unfold Reachable at h
  induction h with
  | refl => exact sinv_init
  | tail _ hstep ih =>
      obtain ⟨c, hg, hs⟩ := hstep
      rw [hs]
      exact sinv_step md _ c ih hg

theorem update_lock_events (s : State) (who : Nat) (a : Nat) :
    (update_lock s who a).events = s.events := by
  unfold update_lock; split <;> rfl

theorem ledger_reduce_events (s : State) (who : Nat) (a : Nat) :
    (ledger_reduce s who a).events = s.events := by
  unfold ledger_reduce; rw [update_lock_events]

theorem ledger_reduce_stakeLedger (s : State) (who : Nat) (a : Nat) :
    (ledger_reduce s who a).stakeLedger
      = upd s.stakeLedger who (some ((s.stakeLedger who).getD 0 - a)) := by
  unfold ledger_reduce
  rw [update_lock_stakeLedger]

theorem tpq_step_stakeLedger (s : State) (p : PoolInfo) (w : WithdrawInfo)
    (rest : List WithdrawInfo) (u0 : UserStakeInfo) :
    (tpq_step s p w rest u0).1.stakeLedger
      = upd s.stakeLedger u0.user
          (some ((s.stakeLedger u0.user).getD 0 - min p.free_stake w.amount)) := by
  simp only [tpq_step]
  show (emit (ledger_reduce s u0.user (min p.free_stake w.amount)) _).stakeLedger = _
  show (ledger_reduce s u0.user (min p.free_stake w.amount)).stakeLedger = _
  rw [ledger_reduce_stakeLedger]

theorem tpq_step_events (s : State) (p : PoolInfo) (w : WithdrawInfo)
    (rest : List WithdrawInfo) (u0 : UserStakeInfo) :
    (tpq_step s p w rest u0).1.events
      = s.events ++ [Event.Withdraw p.pid u0.user (min p.free_stake w.amount)] := by
  simp only [tpq_step]
  show (emit (ledger_reduce s u0.user (min p.free_stake w.amount)) _).events = _
  show (ledger_reduce s u0.user (min p.free_stake w.amount)).events ++ _ = _
  rw [ledger_reduce_events]

theorem tpw_step_eq (s : State) (p : PoolInfo) (w : WithdrawInfo)
    (rest : List WithdrawInfo) (u0 : UserStakeInfo)
    (hq : p.withdraw_queue = w :: rest) (hfree : 0 < p.free_stake)
    (hu : s.stakingInfo (p.pid, w.user) = some u0) :
    try_process_withdraw_queue s p =
      try_process_withdraw_queue (tpq_step s p w rest u0).1 (tpq_step s p w rest u0).2 := by
  unfold try_process_withdraw_queue
  rw [hq, List.length_cons]
  rw [tpq_succ_step (rest.length + 1) s p w rest u0 hfree hq hu]
  by_cases hc : w.amount - min p.free_stake w.amount = 0
  · have hq2 : (tpq_step s p w rest u0).2.withdraw_queue = rest := by
      rw [tpq_step_queue, if_pos hc]
    rw [hq2]
  · have hminl : min p.free_stake w.amount ≤ p.free_stake := Nat.min_le_left _ _
    have hminr : min p.free_stake w.amount ≤ w.amount := Nat.min_le_right _ _
    have hmineq : min p.free_stake w.amount = p.free_stake ∨
        min p.free_stake w.amount = w.amount :=
      (Nat.le_total p.free_stake w.amount).imp
        (fun h2 => Nat.min_eq_left h2) (fun h2 => Nat.min_eq_right h2)
    have hf0 : (tpq_step s p w rest u0).2.free_stake = 0 := by
      rw [(tpq_step_free_total s p w rest u0).1]
      omega
    have hstop : ¬ 0 < (tpq_step s p w rest u0).2.free_stake := by
      rw [hf0]
      exact Nat.lt_irrefl 0
    rw [tpq_succ_stop rest.length _ _ hstop,
      tpq_succ_stop (tpq_step s p w rest u0).2.withdraw_queue.length _ _ hstop]

/-- C4: when a reward r > 0 is admitted to a pool with positive total stake S,
the owner reward grows by exactly the floored commission (zero when no
commission rate is set) and the accumulator grows by exactly
floor((r - commission) * 10^6 / S), the division residue being discarded;
in particular a 50 percent commission on a reward of 500 is exactly 250. -/
theorem C4_reward_admission (p : PoolInfo) (r : Nat) (hr : 0 < r)
    (hs : 0 < p.total_stake) :
    (handle_pool_new_reward p r).owner_reward
      = p.owner_reward + permill_mul p.payout_commission r ∧
    (handle_pool_new_reward p r).pool_acc
      = p.pool_acc + (r - permill_mul p.payout_commission r) * SCALE / p.total_stake ∧
    permill_mul none r = 0 ∧
    permill_mul (some 500000) 500 = 250 := by
  unfold handle_pool_new_reward add_reward
  rw [if_pos ⟨hr, hs⟩]
  refine ⟨rfl, rfl, ?_, by decide⟩
  unfold permill_mul
  simp

/-- Witness for C4 at a concrete pool with a 50 percent commission, total
stake 500 and a reward of 500. -/
theorem C4_reward_admission_witness :
    0 < 500 ∧ 0 < (⟨0, 1, some 500000, 7, none, 3, 500, 0, [], []⟩ : PoolInfo).total_stake ∧
    ((handle_pool_new_reward ⟨0, 1, some 500000, 7, none, 3, 500, 0, [], []⟩ 500).owner_reward
        = 7 + permill_mul (some 500000) 500 ∧
      (handle_pool_new_reward ⟨0, 1, some 500000, 7, none, 3, 500, 0, [], []⟩ 500).pool_acc
        = 3 + (500 - permill_mul (some 500000) 500) * SCALE / 500 ∧
      permill_mul none 500 = 0 ∧
      permill_mul (some 500000) 500 = 250) :=
  ⟨by decide, by decide,
    C4_reward_admission ⟨0, 1, some 500000, 7, none, 3, 500, 0, [], []⟩ 500
      (by decide) (by decide)⟩

/-- C10: a settle entry whose payout is zero, or whose pool has zero total
stake, leaves the pool record entirely unchanged; in particular no
commission reaches owner_reward even when a commission rate is set. -/
theorem C10_zero_reward_discarded (s : State) (w pid payout : Nat) (p : PoolInfo)
    (hw : s.workerInPool w = some pid) (hp : s.miningPools pid = some p)
    (hz : payout = 0 ∨ p.total_stake = 0) :
    ∀ q, (on_reward_one s w payout).miningPools q = s.miningPools q := by
  intro q
  unfold on_reward_one
  rw [hw]
  dsimp only
  rw [hp]
  dsimp only
  have hnp : handle_pool_new_reward p payout = p := by
    unfold handle_pool_new_reward
    rw [if_neg]
    rintro ⟨h1, h2⟩
    rcases hz with rfl | hz0
    · exact Nat.lt_irrefl 0 h1
    · rw [hz0] at h2
      exact Nat.lt_irrefl 0 h2
  rw [hnp]
  by_cases he : q = pid
  · show upd s.miningPools pid (some p) q = s.miningPools q
    rw [he, upd_self]
    exact hp.symm
  · show upd s.miningPools pid (some p) q = s.miningPools q
    rw [upd_ne _ _ _ _ he]

/-- Witness for C10: pool 0 of the base trace has a bound worker 7, a
commission-free zero-stake pool, and a payout of 5 leaves it unchanged. -/
theorem C10_zero_reward_discarded_witness :
    traceBase.workerInPool 7 = some 0 ∧
    traceBase.miningPools 0 = some ⟨0, 30, none, 0, none, 0, 0, 0, [7], []⟩ ∧
    (on_reward_one traceBase 7 5).miningPools 0 = traceBase.miningPools 0 :=
  ⟨by decide, by decide,
    C10_zero_reward_discarded traceBase 7 0 5 ⟨0, 30, none, 0, none, 0, 0, 0, [7], []⟩
      (by decide) (by decide) (Or.inr (by decide)) 0⟩

/-- C2: in every state reachable by any sequence of operations, every pool
satisfies free_stake less-or-equal total_stake, and a pool with a non-empty
withdraw queue has zero free stake. -/
theorem C2_pool_invariant (md : Nat) (s : State) (h : Reachable md s) (pid : Nat)
    (p : PoolInfo) (hp : s.miningPools pid = some p) :
    p.free_stake ≤ p.total_stake ∧ (p.withdraw_queue ≠ [] → p.free_stake = 0) := by
  have hi := reachable_sinv md s h
  refine ⟨?_, hi.queue_free pid p hp⟩
  have := hi.stake_bound pid p hp
  omega

/-- Witness for C2 at the concrete reachable state after create, add_worker,
funding and a deposit of 100. -/
theorem C2_pool_invariant_witness :
    (⟨0, 30, none, 0, none, 0, 100, 100, [7], []⟩ : PoolInfo).free_stake
      ≤ (⟨0, 30, none, 0, none, 0, 100, 100, [7], []⟩ : PoolInfo).total_stake ∧
    ((⟨0, 30, none, 0, none, 0, 100, 100, [7], []⟩ : PoolInfo).withdraw_queue ≠ [] →
      (⟨0, 30, none, 0, none, 0, 100, 100, [7], []⟩ : PoolInfo).free_stake = 0) := by
  have hr : Reachable 1 traceDep :=
    Relation.ReflTransGen.tail
      (Relation.ReflTransGen.tail
        (Relation.ReflTransGen.tail
          (Relation.ReflTransGen.single
            ⟨OpCall.opCreate 30, trivial, rfl⟩)
          ⟨OpCall.opAddWorker 30 0 7 true true true, trivial, rfl⟩)
        ⟨OpCall.opFund (fun _ => 1000000), trivial, rfl⟩)
      ⟨OpCall.opDeposit 5 0 100, trivial, rfl⟩
  exact C2_pool_invariant 1 traceDep hr 0 ⟨0, 30, none, 0, none, 0, 100, 100, [7], []⟩
    (by decide)

/-- C8: in every reachable state, every staking record of an existing pool
satisfies user_debt less-or-equal amount * pool_acc / 10^6, so the unsigned
subtraction inside pending_reward is exact and never underflows. -/
theorem C8_debt_bound (md : Nat) (s : State) (h : Reachable md s) (pid a : Nat)
    (u : UserStakeInfo) (p : PoolInfo) (hu : s.stakingInfo (pid, a) = some u)
    (hp : s.miningPools pid = some p) :
    u.user_debt ≤ u.amount * p.pool_acc / SCALE ∧
    pending_reward u p.pool_acc + u.user_debt = u.amount * p.pool_acc / SCALE := by
  have hi := reachable_sinv md s h
  have hb := hi.debt_bound pid a u p hu hp
  refine ⟨hb, ?_⟩
  unfold pending_reward
  omega

/-- Witness for C8 at the concrete reachable state after a deposit of 100
by account 5. -/
theorem C8_debt_bound_witness :
    (⟨5, 100, 0, 0⟩ : UserStakeInfo).user_debt
      ≤ (⟨5, 100, 0, 0⟩ : UserStakeInfo).amount
          * (⟨0, 30, none, 0, none, 0, 100, 100, [7], []⟩ : PoolInfo).pool_acc / SCALE ∧
    pending_reward ⟨5, 100, 0, 0⟩ (⟨0, 30, none, 0, none, 0, 100, 100, [7], []⟩ : PoolInfo).pool_acc
        + (⟨5, 100, 0, 0⟩ : UserStakeInfo).user_debt
      = (⟨5, 100, 0, 0⟩ : UserStakeInfo).amount
          * (⟨0, 30, none, 0, none, 0, 100, 100, [7], []⟩ : PoolInfo).pool_acc / SCALE := by
  have hr : Reachable 1 traceDep :=
    Relation.ReflTransGen.tail
      (Relation.ReflTransGen.tail
        (Relation.ReflTransGen.tail
          (Relation.ReflTransGen.single
            ⟨OpCall.opCreate 30, trivial, rfl⟩)
          ⟨OpCall.opAddWorker 30 0 7 true true true, trivial, rfl⟩)
        ⟨OpCall.opFund (fun _ => 1000000), trivial, rfl⟩)
      ⟨OpCall.opDeposit 5 0 100, trivial, rfl⟩
  exact C8_debt_bound 1 traceDep hr 0 5 ⟨5, 100, 0, 0⟩
    ⟨0, 30, none, 0, none, 0, 100, 100, [7], []⟩ (by decide) (by decide)

/-- C1: withdraw changes the staked amount without settling the pending
reward first. In the concrete trace, account 5 has 100 staked with
pool_acc = 10^6 and user_debt = 0, so its pending reward is 100; after
withdraw of 50 the record has amount 50 and user_debt 50, giving a pending
reward of 0 with available_rewards still 0 — the 100 units of
reward were silently lost, contradicting the settle-before-change rule. -/
theorem C1_withdraw_drops_pending_reward :
    (∃ u p, c1Rewarded.stakingInfo (0, 5) = some u ∧
      c1Rewarded.miningPools 0 = some p ∧
      pending_reward u p.pool_acc = 100 ∧ u.available_rewards = 0) ∧
    (withdraw c1Rewarded 5 0 50 0).2 = none ∧
    (∃ u p, c1After.stakingInfo (0, 5) = some u ∧
      c1After.miningPools 0 = some p ∧
      pending_reward u p.pool_acc = 0 ∧ u.available_rewards = 0) := by
  refine ⟨⟨⟨5, 100, 0, 0⟩, ⟨0, 30, none, 0, none, 1000000, 100, 100, [7], []⟩,
    by decide, by decide, by decide, by decide⟩, by decide,
    ⟨⟨5, 50, 0, 50⟩, ⟨0, 30, none, 0, none, 1000000, 50, 50, [7], []⟩,
    by decide, by decide, by decide, by decide⟩⟩

/-- C3: a reachable state in which the staking ledger of account 5 reads 0
and its lock has been removed while the account still has 50 staked in
pool 1. The over-permissive queue check lets account 5 enqueue its stake
twice; after the worker cleanup drains the first entry the stale second
entry drains the remaining 100 of free stake from the next deposit,
saturating the ledger to 0 and removing the lock even though 50 of real
stake remain in the other pool. -/
theorem C3_ledger_diverges_from_stake_sum :
    Reachable 1 c3Final ∧
    ledger_query c3Final 5 = 0 ∧
    sumUserAmounts c3Final 5 = 50 ∧
    c3Final.locks 5 = none := by
  refine ⟨?_, by decide, by decide, by decide⟩
  refine Relation.ReflTransGen.tail (Relation.ReflTransGen.tail
    (Relation.ReflTransGen.tail (Relation.ReflTransGen.tail
    (Relation.ReflTransGen.tail (Relation.ReflTransGen.tail
    (Relation.ReflTransGen.tail (Relation.ReflTransGen.tail
    (Relation.ReflTransGen.tail (Relation.ReflTransGen.tail
    (Relation.ReflTransGen.single
      (⟨OpCall.opCreate 30, trivial, rfl⟩ : StepR 1 initState _))
      ⟨OpCall.opAddWorker 30 0 7 true true true, trivial, rfl⟩)
      ⟨OpCall.opFund (fun _ => 1000000), trivial, rfl⟩)
      ⟨OpCall.opDeposit 5 0 100, trivial, rfl⟩)
      ⟨OpCall.opStartMining 30 0 7 100 true, trivial, rfl⟩)
      ⟨OpCall.opWithdraw 5 0 100 0, trivial, rfl⟩)
      ⟨OpCall.opWithdraw 5 0 100 1, trivial, rfl⟩)
      ⟨OpCall.opOnCleanup 7 100,
        show (c3Queued2.workerInPool 7).isSome ∧ 100 ≤ c3Queued2.minerStake 7 by decide, rfl⟩)
      ⟨OpCall.opCreate 30, trivial, rfl⟩)
      ⟨OpCall.opDeposit 5 1 50, trivial, rfl⟩)
      ⟨OpCall.opDeposit 6 0 100, trivial, rfl⟩

/-- C7: set_cap fails with PoolNotExist on an absent pool, with
UnauthorizedPoolOwner when the caller is not the owner, with
InvalidCapacity when the new cap is below the current total stake, and
otherwise succeeds and records the cap; deposit into a pool whose cap
leaves less room than the deposited amount fails with StakeExceedCapacity
and leaves the state unchanged. -/
theorem C7_cap_enforcement (s : State) (caller pid cap : Nat) :
    (s.miningPools pid = none → set_cap s caller pid cap = (s, some Err.PoolNotExist)) ∧
    (∀ pool, s.miningPools pid = some pool →
      (pool.owner ≠ caller → set_cap s caller pid cap = (s, some Err.UnauthorizedPoolOwner)) ∧
      (pool.owner = caller → cap < pool.total_stake →
        set_cap s caller pid cap = (s, some Err.InvalidCapacity)) ∧
      (pool.owner = caller → pool.total_stake ≤ cap →
        (set_cap s caller pid cap).2 = none ∧
        (set_cap s caller pid cap).1.miningPools pid = some { pool with cap := some cap })) ∧
    (∀ md who amount pool c, s.miningPools pid = some pool → pool.cap = some c →
      md ≤ amount → amount ≤ s.freeBalance who → c - pool.total_stake < amount →
      deposit md s who pid amount = (s, some Err.StakeExceedCapacity)) := by
  refine ⟨?_, ?_, ?_⟩
  · intro hn
    unfold set_cap
    rw [hn]
  · intro pool hp
    unfold set_cap
    rw [hp]
    dsimp only
    refine ⟨?_, ?_, ?_⟩
    · intro hne
      rw [if_pos hne]
    · intro he hlt
      rw [if_neg (fun h => h he), if_pos (fun h => Nat.lt_irrefl _ (Nat.lt_of_lt_of_le hlt h))]
    · intro he hle
      rw [if_neg (fun h => h he), if_neg (fun h => h hle)]
      refine ⟨rfl, ?_⟩
      dsimp only [emit]
      exact upd_self _ _ _
  · intro md who amount pool c hp hc hmd hfb hlt
    unfold deposit
    rw [if_neg (Nat.not_lt.mpr hmd), if_neg (Nat.not_lt.mpr hfb), hp]
    dsimp only
    rw [hc]
    dsimp only
    rw [if_pos (decide_eq_true hlt)]

/-- Witness for C7 on a concrete pool owned by 30 with total stake 100 and
cap 200: lowering the cap to 50 is rejected, and a deposit of 600 exceeds
the remaining capacity of 100. -/
theorem C7_cap_enforcement_witness :
    set_cap capState 30 0 50 = (capState, some Err.InvalidCapacity) ∧
    deposit 1 capState 5 0 600 = (capState, some Err.StakeExceedCapacity) :=
  ⟨((C7_cap_enforcement capState 30 0 50).2.1
      ⟨0, 30, none, 0, some 200, 0, 100, 100, [], []⟩ (by decide)).2.1 (by decide) (by decide),
    (C7_cap_enforcement capState 30 0 50).2.2 1 5 600
      ⟨0, 30, none, 0, some 200, 0, 100, 100, [], []⟩ 200
      (by decide) (by decide) (by decide) (by decide) (by decide)⟩

/-- C6: every user-facing operation is atomic on error.  create never
errors; add_worker, set_cap, set_payout_pref, deposit, withdraw,
claim_reward and stop_mining return the state exactly as given on every
error; and start_mining on error either returns the state unchanged or,
on StartMiningCallFailed, leaves all pool, user-stake, ledger and
withdraw-index state (and balances and events) unchanged while the
miner deposit written by set_deposit is reverted to zero. -/
theorem C6_error_atomicity (md : Nat) (s : State) :
    (∀ o, (create s o).2 = none) ∧
    (∀ c pid w r op b e, (add_worker s c pid w r op b).2 = some e →
      (add_worker s c pid w r op b).1 = s) ∧
    (∀ c pid cap e, (set_cap s c pid cap).2 = some e → (set_cap s c pid cap).1 = s) ∧
    (∀ c pid com e, (set_payout_pref s c pid com).2 = some e →
      (set_payout_pref s c pid com).1 = s) ∧
    (∀ who pid a e, (deposit md s who pid a).2 = some e → (deposit md s who pid a).1 = s) ∧
    (∀ who pid a now e, (withdraw s who pid a now).2 = some e →
      (withdraw s who pid a now).1 = s) ∧
    (∀ who pid t ok e, (claim_reward s who pid t ok).2 = some e →
      (claim_reward s who pid t ok).1 = s) ∧
    (∀ c pid w ok e, (stop_mining s c pid w ok).2 = some e → (stop_mining s c pid w ok).1 = s) ∧
    (∀ c pid w st ok e, (start_mining s c pid w st ok).2 = some e →
      (start_mining s c pid w st ok).1 = s ∨
      (e = Err.StartMiningCallFailed ∧
        core (start_mining s c pid w st ok).1 = core s ∧
        (start_mining s c pid w st ok).1.freeBalance = s.freeBalance ∧
        (start_mining s c pid w st ok).1.events = s.events ∧
        (start_mining s c pid w st ok).1.minerStake w = 0 ∧
        ∀ x, x ≠ w → (start_mining s c pid w st ok).1.minerStake x = s.minerStake x)) := by
  refine ⟨fun o => rfl, ?_, ?_, ?_, ?_, ?_, ?_, ?_, ?_⟩
  · intro c pid w r op b e
    unfold add_worker
    split
    · exact fun _ => rfl
    · split
      · exact fun _ => rfl
      · split
        · exact fun _ => rfl
        · split
          · exact fun _ => rfl
          · split
            · exact fun _ => rfl
            · split
              · exact fun _ => rfl
              · split
                · exact fun _ => rfl
                · exact fun h => Option.noConfusion h
  · intro c pid cap e
    unfold set_cap
    split
    · exact fun _ => rfl
    · split
      · exact fun _ => rfl
      · split
        · exact fun _ => rfl
        · exact fun h => Option.noConfusion h
  · intro c pid com e
    unfold set_payout_pref
    split
    · exact fun _ => rfl
    · split
      · exact fun _ => rfl
      · exact fun h => Option.noConfusion h
  · intro who pid a e
    unfold deposit
    split
    · exact fun _ => rfl
    · split
      · exact fun _ => rfl
      · split
        · exact fun _ => rfl
        · split
          · dsimp only
            split
            · exact fun _ => rfl
            · exact fun h => Option.noConfusion h
          · exact fun h => Option.noConfusion h
  · intro who pid a now e
    unfold withdraw
    split
    · exact fun _ => rfl
    · split
      · exact fun _ => rfl
      · split
        · exact fun _ => rfl
        · exact fun h => Option.noConfusion h
  · intro who pid t ok e
    unfold claim_reward
    split
    · exact fun _ => rfl
    · split
      · exact fun _ => rfl
      · split
        · exact fun _ => rfl
        · exact fun h => Option.noConfusion h
  · intro c pid w ok e
    exact fun _ => stop_mining_state s c pid w ok
  · intro c pid w st ok e
    unfold start_mining
    split
    · exact fun _ => Or.inl rfl
    · split
      · exact fun _ => Or.inl rfl
      · split
        · exact fun _ => Or.inl rfl
        · split
          · exact fun _ => Or.inl rfl
          · split
            · exact fun h => Option.noConfusion h
            · intro h
              refine Or.inr ⟨(Option.some.inj h).symm, rfl, rfl, rfl, ?_, ?_⟩
              · show upd (upd s.minerStake w st) w 0 w = 0
                rw [upd_self]
              · intro x hx
                show upd (upd s.minerStake w st) w 0 x = s.minerStake x
                rw [upd_ne _ _ _ _ hx, upd_ne _ _ _ _ hx]

/-- Witness for C6: withdrawing from a pool with no stake record for the
caller errors with StakeInfoNotFound and returns the state untouched. -/
theorem C6_error_atomicity_witness :
    (withdraw capState 5 0 10 0).2 = some Err.StakeInfoNotFound ∧
    (withdraw capState 5 0 10 0).1 = capState :=
  ⟨by decide,
    (C6_error_atomicity 1 capState).2.2.2.2.2.1 5 0 10 0
      Err.StakeInfoNotFound (by decide)⟩

theorem clear_user_idem (p : PoolInfo) (u : UserStakeInfo)
    (hd : u.user_debt = u.amount * p.pool_acc / SCALE) :
    clear_user_pending_reward p u = u := by
  cases u with
  | mk a b c d =>
    dsimp only at hd
    unfold clear_user_pending_reward clear_pending_reward pending_reward
    dsimp only
    rw [hd, Nat.sub_self, Nat.add_zero]

/-- C9: claim_reward is idempotent when no new reward arrives: immediately
repeating a successful claim succeeds again, transfers zero (the target
balance is unchanged and the emitted WithdrawRewards amount is 0), and
leaves every user-stake record and every pool unchanged. -/
theorem C9_claim_idempotent (s : State) (who pid target : Nat)
    (u0 : UserStakeInfo) (pool : PoolInfo)
    (hu : s.stakingInfo (pid, who) = some u0) (hp : s.miningPools pid = some pool) :
    (claim_reward s who pid target true).2 = none ∧
    (claim_reward (claim_reward s who pid target true).1 who pid target true).2 = none ∧
    (∀ k, (claim_reward (claim_reward s who pid target true).1 who pid target true).1.stakingInfo k
        = (claim_reward s who pid target true).1.stakingInfo k) ∧
    (claim_reward (claim_reward s who pid target true).1 who pid target true).1.miningPools
        = (claim_reward s who pid target true).1.miningPools ∧
    (∀ x, (claim_reward (claim_reward s who pid target true).1 who pid target true).1.freeBalance x
        = (claim_reward s who pid target true).1.freeBalance x) ∧
    (claim_reward (claim_reward s who pid target true).1 who pid target true).1.events
        = (claim_reward s who pid target true).1.events
            ++ [Event.WithdrawRewards pid who 0] := by
  have hs1 : claim_reward s who pid target true
      = (emit { s with
            freeBalance := upd s.freeBalance target (s.freeBalance target + (clear_user_pending_reward pool u0).available_rewards),
            stakingInfo := upd s.stakingInfo (pid, who) (some { clear_user_pending_reward pool u0 with available_rewards := 0 }) }
          (Event.WithdrawRewards pid who (clear_user_pending_reward pool u0).available_rewards),
        none) := by
    unfold claim_reward
    rw [hu]
    dsimp only
    rw [hp]
    dsimp only
    rw [if_neg (fun hh => hh rfl)]
  rw [hs1]
  dsimp only
  have hcu : clear_user_pending_reward pool
        { clear_user_pending_reward pool u0 with available_rewards := 0 }
      = { clear_user_pending_reward pool u0 with available_rewards := 0 } :=
    clear_user_idem pool _ rfl
  unfold claim_reward
  dsimp only [emit]
  rw [upd_self]
  dsimp only
  rw [hp]
  dsimp only
  rw [if_neg (fun hh => hh rfl)]
  rw [hcu]
  dsimp only
  refine ⟨rfl, rfl, ?_, rfl, ?_, rfl⟩
  · intro k
    by_cases hk : k = (pid, who)
    · rw [hk, upd_self, upd_self]
    · rw [upd_ne _ _ _ _ hk, upd_ne _ _ _ _ hk]
  · intro x
    by_cases hx : x = target
    · rw [hx, upd_self, Nat.add_zero]
    · rw [upd_ne _ _ _ _ hx]

/-- Witness for C9 on the rewarded trace: account 5 claims its 100 reward
into account 9, and the immediately repeated claim succeeds with no
further effect on its stake record or the target balance. -/
theorem C9_claim_idempotent_witness :
    (claim_reward c1Rewarded 5 0 9 true).2 = none ∧
    (claim_reward (claim_reward c1Rewarded 5 0 9 true).1 5 0 9 true).2 = none ∧
    (claim_reward (claim_reward c1Rewarded 5 0 9 true).1 5 0 9 true).1.stakingInfo (0, 5)
      = (claim_reward c1Rewarded 5 0 9 true).1.stakingInfo (0, 5) ∧
    (claim_reward (claim_reward c1Rewarded 5 0 9 true).1 5 0 9 true).1.freeBalance 9
      = (claim_reward c1Rewarded 5 0 9 true).1.freeBalance 9 := by
  have h := C9_claim_idempotent c1Rewarded 5 0 9 ⟨5, 100, 0, 0⟩
    ⟨0, 30, none, 0, none, 1000000, 100, 100, [7], []⟩ (by decide) (by decide)
  exact ⟨h.1, h.2.1, h.2.2.1 (0, 5), h.2.2.2.2.1 9⟩

/-- C5: the withdraw queue drains only from the head.  With free stake
available and a queued head entry backed by a staking record, one
iteration of try_process_withdraw_queue runs tpq_step: it withdraws
delta = min(free_stake, head.amount) from free_stake, total_stake, the
head entry and the head user's amount, reduces that user's ledger by delta
and appends Withdraw(pid, user, delta); the head is popped exactly when
its amount reaches zero.  The loop always ends with zero free stake or an
empty queue.  On the spec example, a queued 199 met by cleanup deposits of
100 and then 400 emits Withdraw of 100 then 99 and leaves 301 free. -/
theorem C5_queue_drain :
    (∀ s p w rest u0, p.withdraw_queue = w :: rest → 0 < p.free_stake →
      s.stakingInfo (p.pid, w.user) = some u0 →
      try_process_withdraw_queue s p
        = try_process_withdraw_queue (tpq_step s p w rest u0).1 (tpq_step s p w rest u0).2 ∧
      (tpq_step s p w rest u0).2.free_stake = p.free_stake - min p.free_stake w.amount ∧
      (tpq_step s p w rest u0).2.total_stake = p.total_stake - min p.free_stake w.amount ∧
      (tpq_step s p w rest u0).2.withdraw_queue
        = (if w.amount - min p.free_stake w.amount = 0 then rest
           else { w with amount := w.amount - min p.free_stake w.amount } :: rest) ∧
      (tpq_step s p w rest u0).1.stakingInfo (p.pid, w.user)
        = some (drain_user p u0 (min p.free_stake w.amount)) ∧
      (drain_user p u0 (min p.free_stake w.amount)).amount
        = (clear_user_pending_reward p u0).amount - min p.free_stake w.amount ∧
      ledger_query (tpq_step s p w rest u0).1 u0.user
        = ledger_query s u0.user - min p.free_stake w.amount ∧
      (tpq_step s p w rest u0).1.events
        = s.events ++ [Event.Withdraw p.pid u0.user (min p.free_stake w.amount)]) ∧
    (∀ s p, (∀ wi ∈ p.withdraw_queue, (s.stakingInfo (p.pid, wi.user)).isSome = true) →
      (try_process_withdraw_queue s p).2.free_stake = 0 ∨
      (try_process_withdraw_queue s p).2.withdraw_queue = []) ∧
    (c5Mid.events = [Event.Withdraw 0 5 100] ∧
      c5Mid.miningPools 0 = some ⟨0, 30, none, 0, none, 0, 400, 0, [1, 2], [⟨5, 99, 0⟩]⟩ ∧
      c5End.events = [Event.Withdraw 0 5 100, Event.Withdraw 0 5 99] ∧
      c5End.miningPools 0 = some ⟨0, 30, none, 0, none, 0, 301, 301, [1, 2], []⟩) := by
  refine ⟨?_, ?_, by decide, by decide, by decide, by decide⟩
  · intro s p w rest u0 hq hfree hu
    refine ⟨tpw_step_eq s p w rest u0 hq hfree hu,
      (tpq_step_free_total s p w rest u0).1, (tpq_step_free_total s p w rest u0).2,
      tpq_step_queue s p w rest u0, ?_, rfl, ?_, tpq_step_events s p w rest u0⟩
    · rw [tpq_step_stakingInfo, upd_self]
    · unfold ledger_query
      rw [tpq_step_stakeLedger, upd_self, Option.getD_some]
  · intro s p hq
    exact (tpw_spec s p hq).2.2.1

/-- Witness for C5: one iteration on the cleanup state with 100 free stake
against the queued 199, and termination of the full drain. -/
theorem C5_queue_drain_witness :
    try_process_withdraw_queue c5Start ⟨0, 30, none, 0, none, 0, 500, 100, [1, 2], [⟨5, 199, 0⟩]⟩
      = try_process_withdraw_queue
          (tpq_step c5Start ⟨0, 30, none, 0, none, 0, 500, 100, [1, 2], [⟨5, 199, 0⟩]⟩
            ⟨5, 199, 0⟩ [] ⟨5, 499, 0, 0⟩).1
          (tpq_step c5Start ⟨0, 30, none, 0, none, 0, 500, 100, [1, 2], [⟨5, 199, 0⟩]⟩
            ⟨5, 199, 0⟩ [] ⟨5, 499, 0, 0⟩).2 ∧
    ((try_process_withdraw_queue c5Start
        ⟨0, 30, none, 0, none, 0, 500, 100, [1, 2], [⟨5, 199, 0⟩]⟩).2.free_stake = 0 ∨
      (try_process_withdraw_queue c5Start
        ⟨0, 30, none, 0, none, 0, 500, 100, [1, 2], [⟨5, 199, 0⟩]⟩).2.withdraw_queue = []) :=
  ⟨(C5_queue_drain.1 c5Start ⟨0, 30, none, 0, none, 0, 500, 100, [1, 2], [⟨5, 199, 0⟩]⟩
      ⟨5, 199, 0⟩ [] ⟨5, 499, 0, 0⟩ (by decide) (by decide) (by decide)).1,
    C5_queue_drain.2.1 c5Start ⟨0, 30, none, 0, none, 0, 500, 100, [1, 2], [⟨5, 199, 0⟩]⟩
      (by decide)⟩
